import Mathlib

/-!
Shallow embedding of the QueueArray circular-buffer queue
(`src/C-DataStructures-Library/src/QueueArray.c`) and of the RedBlackTree
operations (whose implementation file is absent from the sources; they are
modelled from the specification).  All machine integers (`integer_t`) hold
small nonnegative index/size values in every reachable state, so they are
modelled by `ℕ` (with `ℤ` where the C code can observe signedness).
-/

namespace CDSL

/-! ## IEEE-754 binary64 model

`qua_grow` computes the new capacity with double arithmetic:
`(integer_t)((double)capacity * ((double)growth_rate / 100.0))`.
A nonnegative double is modelled by its exact value, kept as an unreduced
fraction `a / b` of naturals; each arithmetic operation rounds the exact
rational result to 53 significant bits, ties to even, which is the IEEE-754
default rounding mode.  Only values `≥ 1` occur in `qua_grow` (capacity ≥ 1,
growth_rate/100 > 1), so subnormals, negatives and overflow need no model and
`roundB64` is the identity below 1. -/

/-- `⌊log₂ n⌋` with explicit fuel so that it reduces structurally (the fuel
`n` is always sufficient since the argument at least halves each step). -/
def lg2Aux : ℕ → ℕ → ℕ
  | 0, _ => 0
  | _, 0 => 0
  | _, 1 => 0
  | fuel + 1, n => lg2Aux fuel (n / 2) + 1

/-- `⌊log₂ n⌋` (0 for `n = 0`). -/
def lg2 (n : ℕ) : ℕ := lg2Aux n n

/-- Round the fraction `a / b` (with `b ≠ 0`) to the nearest natural number,
ties to even. -/
def roundHalfEvenFrac (a b : ℕ) : ℕ :=
  let q := a / b
  let r := a % b
  if 2 * r < b then q
  else if b < 2 * r then q + 1
  else if q % 2 = 0 then q else q + 1

/-- The value of the binary64 double nearest to `a / b`, for `a / b ≥ 1`,
returned as a fraction: the exact value is rounded to 53 significant bits,
ties to even.  Below 1 (never reached from `qua_grow`) it is the identity. -/
def roundB64Frac (a b : ℕ) : ℕ × ℕ :=
  if a < b then (a, b)
  else
    let e := lg2 (a / b)
    if e ≤ 52 then (roundHalfEvenFrac (a * 2 ^ (52 - e)) b, 2 ^ (52 - e))
    else (roundHalfEvenFrac a (b * 2 ^ (e - 52)) * 2 ^ (e - 52), 1)

/-- The C cast `(double)n` of a nonnegative integer (exact below `2^53`,
rounded above). -/
def int2double (n : ℕ) : ℕ × ℕ := roundB64Frac n 1

/-- IEEE binary64 division of nonnegative doubles: exact quotient, then one
rounding. -/
def ddiv (x y : ℕ × ℕ) : ℕ × ℕ := roundB64Frac (x.1 * y.2) (x.2 * y.1)

/-- IEEE binary64 multiplication of nonnegative doubles: exact product, then
one rounding. -/
def dmul (x y : ℕ × ℕ) : ℕ × ℕ := roundB64Frac (x.1 * y.1) (x.2 * y.2)

/-- The C cast `(integer_t)d` of a nonnegative double: truncation toward
zero, i.e. the floor. -/
def dtrunc (x : ℕ × ℕ) : ℕ := x.1 / x.2

/-- The new capacity computed by `qua_grow` (QueueArray.c lines 713-721):
`capacity = (integer_t)((double)capacity * ((double)growth_rate / 100.0));`
then the minimum-growth clamp
`if (capacity - old_capacity < 4) capacity = old_capacity + 4;`
(the comparison is on signed `integer_t`, hence the cast to `ℤ`). -/
def growCapacity (capacity growth_rate : ℕ) : ℕ :=
  let c := dtrunc (dmul (int2double capacity) (ddiv (int2double growth_rate) (int2double 100)))
  if (c : ℤ) - capacity < 4 then capacity + 4 else c

example : growCapacity 4 200 = 8 := by decide
example : growCapacity 4 101 = 8 := by decide
example : growCapacity 32 200 = 64 := by decide
example : growCapacity 45 140 = 62 := by decide
example : growCapacity 25 116 = 29 := by decide
example : (45 * 140) / 100 = 63 := by decide

/-- The minimum-growth clamp guarantees the capacity grows by at least 4,
whatever the double computation produced. -/
theorem growCapacity_ge (capacity growth_rate : ℕ) :
    capacity + 4 ≤ growCapacity capacity growth_rate := by
  unfold growCapacity
  simp only []
  split
  · exact le_refl _
  · next h => omega

/-! ## QueueArray data model

`struct QueueArray_s` (QueueArray.c lines 32-94).  Element pointers (`void*`)
are modelled by `Option α` with `none` standing for `NULL`; the buffer is a
function `ℕ → Option α` standing for the raw memory the buffer pointer gives
access to — positions at or beyond `capacity` model memory outside the
allocation, whose contents are arbitrary and never read by correct code. -/
structure QueueArray (α : Type) where
  buffer : ℕ → Option α
  front : ℕ
  rear : ℕ
  size : ℕ
  capacity : ℕ
  growth_rate : ℕ
  locked : Bool
  version_id : ℕ

/-- Pointwise update of a buffer, modelling `buffer[j] = v`. -/
def updFn {α : Type} (buf : ℕ → Option α) (j : ℕ) (v : Option α) : ℕ → Option α :=
  fun x => if x = j then v else buf x

/-- `qua_new` (lines 112-142): capacity 32, growth rate 200, all 32 slots
nulled.  `mem` is the content of the freshly `malloc`ed memory beyond the
nulled region; allocation success is not claim-relevant, so the returned
queue is always built. -/
def qua_new {α : Type} (mem : ℕ → Option α) : QueueArray α where
  buffer := fun i => if i < 32 then none else mem i
  front := 0
  rear := 0
  size := 0
  capacity := 32
  growth_rate := 200
  locked := false
  version_id := 0

/-- `qua_create` (lines 161-195): rejects `growth_rate <= 100` and
`initial_capacity <= 0` (signed tests, hence `ℤ` parameters), otherwise
nulls the first `initial_capacity` slots of the fresh memory `mem`. -/
def qua_create {α : Type} (initial_capacity growth_rate : ℤ)
    (mem : ℕ → Option α) : Option (QueueArray α) :=
  if growth_rate ≤ 100 ∨ initial_capacity ≤ 0 then none
  else some
    { buffer := fun i => if i < initial_capacity.toNat then none else mem i
      front := 0
      rear := 0
      size := 0
      capacity := initial_capacity.toNat
      growth_rate := growth_rate.toNat
      locked := false
      version_id := 0 }

/-- `qua_size` (lines 275-279). -/
def qua_size {α : Type} (q : QueueArray α) : ℕ := q.size

/-- `qua_capacity` (lines 288-292). -/
def qua_capacity {α : Type} (q : QueueArray α) : ℕ := q.capacity

/-- `qua_growth` (lines 301-305). -/
def qua_growth {α : Type} (q : QueueArray α) : ℕ := q.growth_rate

/-- `qua_locked` (lines 314-318). -/
def qua_locked {α : Type} (q : QueueArray α) : Bool := q.locked

/-- `qua_set_growth` (lines 329-338): rejects rates `<= 100`, otherwise
stores the new rate.  It does not touch `version_id`. -/
def qua_set_growth {α : Type} (q : QueueArray α) (growth_rate : ℤ) :
    Bool × QueueArray α :=
  if growth_rate ≤ 100 then (false, q)
  else (true, { q with growth_rate := growth_rate.toNat })

/-- `qua_empty` (lines 438-442). -/
def qua_empty {α : Type} (q : QueueArray α) : Bool := q.size == 0

/-- `qua_full` (lines 452-456). -/
def qua_full {α : Type} (q : QueueArray α) : Bool := q.size == q.capacity

/-- `qua_capacity_lock` (lines 477-481). -/
def qua_capacity_lock {α : Type} (q : QueueArray α) : QueueArray α :=
  { q with locked := true }

/-- `qua_capacity_unlock` (lines 486-490). -/
def qua_capacity_unlock {α : Type} (q : QueueArray α) : QueueArray α :=
  { q with locked := false }

/-- The shift loop of `qua_grow` (lines 752-756):
`for (i = old_capacity-1, j = capacity-1; i >= front; i--, j--)
   buffer[j] = buffer[i];`
written as structural recursion on the iteration count
`count = old_capacity - front`; each step copies the top remaining source
slot `oldTop - 1` to the top remaining target slot `newTop - 1`, reading the
buffer as left by the previous iterations, exactly as the C loop does. -/
def shiftRightLoop {α : Type} : (ℕ → Option α) → ℕ → ℕ → ℕ → (ℕ → Option α)
  | buf, _, _, 0 => buf
  | buf, oldTop, newTop, count + 1 =>
    shiftRightLoop (updFn buf (newTop - 1) (buf (oldTop - 1)))
      (oldTop - 1) (newTop - 1) count

/-- The append loop of `qua_grow` (lines 764-768):
`for (i = 0, j = old_capacity; i < rear; i++, j = (j + 1) % capacity)
   buffer[j] = buffer[i];`
written as structural recursion on the remaining count `rear - i`; `i` and
`j` are the C loop variables, and every read sees the buffer as left by the
previous iterations. -/
def copyLeftLoop {α : Type} (newCap : ℕ) :
    (ℕ → Option α) → ℕ → ℕ → ℕ → (ℕ → Option α)
  | buf, _, _, 0 => buf
  | buf, i, j, count + 1 =>
    copyLeftLoop newCap (updFn buf j (buf i)) (i + 1) ((j + 1) % newCap) count

/-- `qua_grow` (lines 707-787).  `allocOk` models whether `realloc`
succeeds, and `mem` the contents of the memory the enlarged buffer exposes
beyond the old capacity (uninitialized, hence arbitrary).  On `realloc`
failure the already-updated capacity is rolled back (lines 727-731).  The
final `else` (lines 783-784) is the defensive unreachable branch: it
reports failure after the buffer was already reallocated. -/
def qua_grow {α : Type} (q : QueueArray α) (allocOk : Bool)
    (mem : ℕ → Option α) : Bool × QueueArray α :=
  if q.locked then (false, q)
  else
    let old_capacity := q.capacity
    let q1 := { q with capacity := growCapacity q.capacity q.growth_rate }
    if !allocOk then (false, { q1 with capacity := old_capacity })
    else
      let q2 := { q1 with buffer := fun i =>
        if i < old_capacity then q1.buffer i else mem i }
      let real_rear := if q2.rear = 0 then old_capacity - 1 else q2.rear - 1
      if real_rear < q2.front then
        if old_capacity - q2.front < q2.rear then
          let distance := old_capacity - q2.front
          (true, { q2 with
            buffer := shiftRightLoop q2.buffer old_capacity q2.capacity
              (old_capacity - q2.front)
            front := q2.capacity - distance })
        else
          (true, { q2 with
            buffer := copyLeftLoop q2.capacity q2.buffer 0 old_capacity q2.rear
            rear := (old_capacity + q2.rear) % q2.capacity })
      else if q2.rear = 0 then
        (true, { q2 with rear := old_capacity })
      else
        (false, q2)

/-- The store step of `qua_enqueue` (lines 359-364): store at `rear`,
advance `rear` circularly, bump `size` and `version_id`. -/
def enqStore {α : Type} (q1 : QueueArray α) (element : Option α) :
    QueueArray α :=
  { q1 with
    buffer := updFn q1.buffer q1.rear element
    rear := if q1.rear = q1.capacity - 1 then 0 else q1.rear + 1
    size := q1.size + 1
    version_id := q1.version_id + 1 }

/-- `qua_enqueue` (lines 350-367): grow when full (failure propagates,
leaving the queue as `qua_grow` left it), then run the store step. -/
def qua_enqueue {α : Type} (q : QueueArray α) (element : Option α)
    (allocOk : Bool) (mem : ℕ → Option α) : Bool × QueueArray α :=
  let g : Bool × QueueArray α :=
    if qua_full q then qua_grow q allocOk mem else (true, q)
  if !g.1 then (false, g.2)
  else (true, enqStore g.2 element)

/-- The state change of a successful `qua_dequeue` (lines 389-394): the
front slot is nulled, `front` advanced circularly, `size` decremented and
`version_id` bumped. -/
def deqStore {α : Type} (q : QueueArray α) : QueueArray α :=
  { q with
    buffer := updFn q.buffer q.front none
    front := if q.front = q.capacity - 1 then 0 else q.front + 1
    size := q.size - 1
    version_id := q.version_id + 1 }

/-- `qua_dequeue` (lines 379-397): `*result` is `NULL`ed, then on a
non-empty queue the front element is handed out and the state change above
performed. -/
def qua_dequeue {α : Type} (q : QueueArray α) :
    Bool × Option α × QueueArray α :=
  if qua_empty q then (false, none, q)
  else (true, q.buffer q.front, deqStore q)

/-- The loop of `qua_erase` (lines 244-251), structural on the remaining
count: frees (collects) the element at the current index `i`, nulls the
slot, and advances `i = (i + 1) % capacity`. -/
def eraseLoop {α : Type} (cap : ℕ) :
    (ℕ → Option α) → ℕ → ℕ → List (Option α) × (ℕ → Option α)
  | buf, _, 0 => ([], buf)
  | buf, i, count + 1 =>
    let rest := eraseLoop cap (updFn buf i none) ((i + 1) % cap) count
    (buf i :: rest.1, rest.2)

/-- `qua_erase` (lines 241-254): frees every occupied slot (the freed
pointers are returned in order, modelling the `interface->free` calls) and
nulls those slots; all the scalar fields, including `version_id`, are left
as they are.  The C function returns `true` unconditionally. -/
def qua_erase {α : Type} (q : QueueArray α) :
    List (Option α) × QueueArray α :=
  let r := eraseLoop q.capacity q.buffer q.front q.size
  (r.1, { q with buffer := r.2 })

/-- The copy loop of `qua_copy` (lines 509-513), structural on the
remaining count: `new_queue->buffer[i] = queue->interface->copy(queue->buffer[i])`
with `i` advancing circularly.  The loop bound is `j < queue->size - 1`,
so it runs `size - 1` times. -/
def copyLoop {α : Type} (cap : ℕ) (src : ℕ → Option α)
    (copyFn : Option α → Option α) :
    (ℕ → Option α) → ℕ → ℕ → (ℕ → Option α)
  | dst, _, 0 => dst
  | dst, i, count + 1 =>
    copyLoop cap src copyFn (updFn dst i (copyFn (src i))) ((i + 1) % cap) count

/-- `qua_copy` (lines 500-521): builds a fresh queue via `qua_create` with
the same capacity and growth rate (`copyMem` is its fresh memory), copies
`size - 1` elements (the loop runs `j < size - 1` times) with the
interface `copy` function at the same circular indices, then transplants
`front`, `rear`, `size` and `locked`. -/
def qua_copy {α : Type} (q : QueueArray α) (copyFn : Option α → Option α)
    (copyMem : ℕ → Option α) : Option (QueueArray α) :=
  match qua_create (q.capacity : ℤ) (q.growth_rate : ℤ) copyMem with
  | none => none
  | some nq =>
    some { nq with
      buffer := copyLoop q.capacity q.buffer copyFn nq.buffer q.front (q.size - 1)
      front := q.front
      rear := q.rear
      size := q.size
      locked := q.locked }

/-- The loop of `qua_to_array` (lines 617-622), structural on the remaining
count.  Each iteration performs `array[i] = queue->interface->copy(queue->buffer[i])`
— note the store index is `i`, the circular buffer index, not the running
output position `j`; the returned list records the store positions and
stored values in order. -/
def toArrayLoop {α : Type} (cap : ℕ) (buf : ℕ → Option α)
    (copyFn : Option α → Option α) : ℕ → ℕ → List (ℕ × Option α)
  | _, 0 => []
  | i, count + 1 =>
    (i, copyFn (buf i)) :: toArrayLoop cap buf copyFn ((i + 1) % cap) count

/-- `qua_to_array` (lines 606-627): `NULL` for an empty queue, otherwise an
array of `size` slots is allocated, the loop above fills it, and `*length`
is set to `size`.  The result records the performed stores (position,
value) and the written `*length`. -/
def qua_to_array {α : Type} (q : QueueArray α)
    (copyFn : Option α → Option α) : Option (List (ℕ × Option α) × ℕ) :=
  if qua_empty q then none
  else some (toArrayLoop q.capacity q.buffer copyFn q.front q.size, q.size)

/-! ## Queue abstraction and invariant -/

/-- The logical sequence of the queue: the `size` occupied slots starting at
`front` and stepping circularly. -/
def logicalSeq {α : Type} (q : QueueArray α) : List (Option α) :=
  (List.range q.size).map fun j => q.buffer ((q.front + j) % q.capacity)

/-- The structural invariant of every reachable queue: positive capacity,
size within capacity, `front` in range and `rear` one past the newest
element, circularly. -/
def Inv {α : Type} (q : QueueArray α) : Prop :=
  0 < q.capacity ∧ q.size ≤ q.capacity ∧ q.front < q.capacity ∧
    q.rear = (q.front + q.size) % q.capacity

instance {α : Type} (q : QueueArray α) : Decidable (Inv q) := by
  unfold Inv
  infer_instance

/-! ## Helper lemmas -/

theorem updFn_self {α : Type} (buf : ℕ → Option α) (j : ℕ) (v : Option α) :
    updFn buf j v j = v := by
  simp [updFn]

theorem updFn_ne {α : Type} (buf : ℕ → Option α) {j x : ℕ} (v : Option α)
    (h : x ≠ j) : updFn buf j v x = buf x := by
  simp [updFn, h]

theorem mod_small_double {a n : ℕ} (h : a < 2 * n) :
    a % n = if a < n then a else a - n := by
  split
  · exact Nat.mod_eq_of_lt ‹_›
  · next h2 =>
    rw [Nat.mod_eq_sub_mod (le_of_not_lt h2), Nat.mod_eq_of_lt (by omega)]

/-- Characterization of the right-shift loop of `qua_grow`: it relocates the
top `count` source slots below `oldTop` to the top `count` target slots below
`newTop`, leaving everything else unchanged.  The downward order of the C
loop guarantees no source slot is overwritten before it is read. -/
theorem shiftRightLoop_spec {α : Type} :
    ∀ (count oldTop newTop : ℕ) (buf : ℕ → Option α),
    count ≤ oldTop → oldTop ≤ newTop →
    shiftRightLoop buf oldTop newTop count =
      fun x => if newTop - count ≤ x ∧ x < newTop
        then buf (x - (newTop - oldTop)) else buf x := by
  intro count
  induction count with
  | zero =>
    intro oldTop newTop buf _ _
    funext x
    rw [shiftRightLoop, if_neg (by omega)]
  | succ m ih =>
    intro oldTop newTop buf hco hon
    funext x
    rw [shiftRightLoop]
    have hx := congrFun (ih (oldTop - 1) (newTop - 1)
      (updFn buf (newTop - 1) (buf (oldTop - 1))) (by omega) (by omega)) x
    rw [hx]
    rcases Nat.lt_or_ge x newTop with hlt | hge
    · rcases Nat.lt_or_ge x (newTop - (m + 1)) with hlo | hhi
      · rw [if_neg (by omega), if_neg (by omega), updFn_ne _ _ (by omega)]
      · rcases Nat.lt_or_ge x (newTop - 1) with hx2 | hx3
        · rw [if_pos (by omega), if_pos (by omega)]
          have hsub : x - (newTop - 1 - (oldTop - 1)) = x - (newTop - oldTop) := by
            omega
          rw [hsub, updFn_ne _ _ (by omega)]
        · have hxe : x = newTop - 1 := by omega
          rw [if_neg (by omega), if_pos (by omega), hxe, updFn_self]
          congr 1
          omega
    · rw [if_neg (by omega), if_neg (by omega), updFn_ne _ _ (by omega)]

/-- Characterization of the append loop of `qua_grow`: iterations `m` with
`i ≤ m < i + count` store the original value of slot `m` at slot
`(oldCap + m) % newCap`, and every other slot is untouched.  The loop is
clobber-free because a wrapped target `oldCap + m - newCap` lies strictly
below every source slot still to be read. -/
theorem copyLeftLoop_spec {α : Type} (oldCap newCap rear : ℕ)
    (hcn : oldCap < newCap) (hrc : rear ≤ oldCap) :
    ∀ (count i : ℕ) (buf : ℕ → Option α), i + count ≤ rear →
      (∀ m, i ≤ m → m < i + count →
        copyLeftLoop newCap buf i ((oldCap + i) % newCap) count
          ((oldCap + m) % newCap) = buf m) ∧
      (∀ x, (∀ m, i ≤ m → m < i + count → x ≠ (oldCap + m) % newCap) →
        copyLeftLoop newCap buf i ((oldCap + i) % newCap) count x = buf x) := by
  intro count
  induction count with
  | zero =>
    intro i buf hir
    constructor
    · intro m h1 h2
      omega
    · intro x _
      rfl
  | succ c ih =>
    intro i buf hir
    have hmod : ((oldCap + i) % newCap + 1) % newCap = (oldCap + (i + 1)) % newCap := by
      rw [Nat.mod_add_mod, Nat.add_assoc]
    have hji := mod_small_double (a := oldCap + i) (n := newCap) (by omega)
    have hbuf' : ∀ m, i + 1 ≤ m → m < rear →
        updFn buf ((oldCap + i) % newCap) (buf i) m = buf m := by
      intro m h1 h2
      apply updFn_ne
      split at hji <;> omega
    obtain ⟨ihA, ihB⟩ := ih (i + 1) (updFn buf ((oldCap + i) % newCap) (buf i)) (by omega)
    constructor
    · intro m h1 h2
      rw [copyLeftLoop, hmod]
      rcases Nat.lt_or_ge i m with him | him
      · rw [ihA m (by omega) (by omega)]
        exact hbuf' m (by omega) (by omega)
      · have hmi : m = i := by omega
        subst hmi
        rw [ihB ((oldCap + m) % newCap) ?_]
        · exact updFn_self _ _ _
        · intro m' hm1 hm2
          have hjm := mod_small_double (a := oldCap + m') (n := newCap) (by omega)
          split at hji <;> split at hjm <;> omega
    · intro x hx
      rw [copyLeftLoop, hmod, ihB x (fun m h1 h2 => hx m (by omega) (by omega))]
      apply updFn_ne
      exact hx i (by omega) (by omega)

/-- `qua_grow` normal form in the no-wraparound branch (lines 777-780):
rear sat at 0 with the content `0 .. capacity-1` in place, so only `rear`
is moved past the old boundary. -/
theorem qua_grow_eq_rear0 {α : Type} (q : QueueArray α) (mem : ℕ → Option α)
    (h1 : q.locked = false) (h2 : q.rear = 0) (h4 : q.front = 0) :
    qua_grow q true mem = (true,
      { q with
        capacity := growCapacity q.capacity q.growth_rate
        buffer := fun i => if i < q.capacity then q.buffer i else mem i
        rear := q.capacity }) := by
  simp only [qua_grow, h1, h2, h4, Bool.false_eq_true, if_false, if_pos rfl,
    Bool.not_true]
  rw [if_neg (by omega), if_pos trivial]

/-- `qua_grow` normal form in the shift-right branch (lines 748-759). -/
theorem qua_grow_eq_shift {α : Type} (q : QueueArray α) (mem : ℕ → Option α)
    (h1 : q.locked = false) (h2 : q.rear ≠ 0) (h5 : q.rear - 1 < q.front)
    (h6 : q.capacity - q.front < q.rear) :
    qua_grow q true mem = (true,
      { q with
        capacity := growCapacity q.capacity q.growth_rate
        buffer := shiftRightLoop
          (fun i => if i < q.capacity then q.buffer i else mem i)
          q.capacity (growCapacity q.capacity q.growth_rate)
          (q.capacity - q.front)
        front := growCapacity q.capacity q.growth_rate -
          (q.capacity - q.front) }) := by
  simp only [qua_grow, h1, Bool.false_eq_true, if_false, if_neg h2,
    Bool.not_true]
  rw [if_pos h5, if_pos h6]

/-- `qua_grow` normal form in the append-left branch (lines 762-771). -/
theorem qua_grow_eq_copy {α : Type} (q : QueueArray α) (mem : ℕ → Option α)
    (h1 : q.locked = false) (h2 : q.rear ≠ 0) (h5 : q.rear - 1 < q.front)
    (h6 : ¬(q.capacity - q.front < q.rear)) :
    qua_grow q true mem = (true,
      { q with
        capacity := growCapacity q.capacity q.growth_rate
        buffer := copyLeftLoop (growCapacity q.capacity q.growth_rate)
          (fun i => if i < q.capacity then q.buffer i else mem i)
          0 q.capacity q.rear
        rear := (q.capacity + q.rear) %
          growCapacity q.capacity q.growth_rate }) := by
  simp only [qua_grow, h1, Bool.false_eq_true, if_false, if_neg h2,
    Bool.not_true]
  rw [if_pos h5, if_neg h6]

/-- The central property of `qua_grow` on a full, unlocked queue with a
successful reallocation: it succeeds, preserves the structural invariant,
leaves the size and the logical front-to-rear sequence of elements exactly
as they were, sets the capacity to `growCapacity`, and does not touch
`locked`, `growth_rate`, or `version_id`. -/
theorem qua_grow_spec {α : Type} (q : QueueArray α) (mem : ℕ → Option α)
    (hInv : Inv q) (hFull : q.size = q.capacity) (hUnlocked : q.locked = false) :
    (qua_grow q true mem).1 = true ∧
    Inv (qua_grow q true mem).2 ∧
    (qua_grow q true mem).2.size = q.size ∧
    (qua_grow q true mem).2.capacity = growCapacity q.capacity q.growth_rate ∧
    logicalSeq (qua_grow q true mem).2 = logicalSeq q ∧
    (qua_grow q true mem).2.locked = q.locked ∧
    (qua_grow q true mem).2.growth_rate = q.growth_rate ∧
    (qua_grow q true mem).2.version_id = q.version_id := by
  obtain ⟨hcap, hsz, hfr, hre⟩ := hInv
  have hfreq : q.rear = q.front := by
    rw [hre, hFull, Nat.add_mod_right, Nat.mod_eq_of_lt hfr]
  have hge := growCapacity_ge q.capacity q.growth_rate
  by_cases hr0 : q.rear = 0
  · -- rear == 0 branch: content `0 .. capacity-1` stays in place
    have hf0 : q.front = 0 := by omega
    rw [qua_grow_eq_rear0 q mem hUnlocked hr0 hf0]
    refine ⟨rfl, ⟨by dsimp only; omega, by dsimp only; omega,
      by dsimp only; omega, ?_⟩, rfl, rfl, ?_, rfl, rfl, rfl⟩
    · show q.capacity = (q.front + q.size) % growCapacity q.capacity q.growth_rate
      rw [hf0, hFull, Nat.zero_add, Nat.mod_eq_of_lt (by omega)]
    · unfold logicalSeq
      apply List.map_congr_left
      intro j hj
      rw [List.mem_range] at hj
      replace hj : j < q.size := hj
      show (if (q.front + j) % growCapacity q.capacity q.growth_rate < q.capacity
        then q.buffer ((q.front + j) % growCapacity q.capacity q.growth_rate)
        else mem ((q.front + j) % growCapacity q.capacity q.growth_rate)) =
        q.buffer ((q.front + j) % q.capacity)
      rw [hf0, Nat.zero_add, Nat.mod_eq_of_lt (by omega),
        Nat.mod_eq_of_lt (by omega), if_pos (by omega)]
  · -- wrapped: the occupied region crosses the end of the buffer
    have h5 : q.rear - 1 < q.front := by omega
    by_cases h6 : q.capacity - q.front < q.rear
    · -- the right portion `front .. capacity-1` is shifted to the new end
      rw [qua_grow_eq_shift q mem hUnlocked hr0 h5 h6]
      have hloop := shiftRightLoop_spec (q.capacity - q.front) q.capacity
        (growCapacity q.capacity q.growth_rate)
        (fun i => if i < q.capacity then q.buffer i else mem i)
        (by omega) (by omega)
      refine ⟨rfl, ⟨by dsimp only; omega, by dsimp only; omega,
        by dsimp only; omega, ?_⟩, rfl, rfl, ?_, rfl, rfl, rfl⟩
      · show q.rear = (growCapacity q.capacity q.growth_rate -
          (q.capacity - q.front) + q.size) %
          growCapacity q.capacity q.growth_rate
        have harg : growCapacity q.capacity q.growth_rate -
            (q.capacity - q.front) + q.size =
            growCapacity q.capacity q.growth_rate + q.front := by omega
        rw [harg, Nat.add_mod_left, Nat.mod_eq_of_lt (by omega), hfreq]
      · unfold logicalSeq
        apply List.map_congr_left
        intro j hj
        rw [List.mem_range] at hj
        replace hj : j < q.size := hj
        show shiftRightLoop
          (fun i => if i < q.capacity then q.buffer i else mem i)
          q.capacity (growCapacity q.capacity q.growth_rate)
          (q.capacity - q.front)
          ((growCapacity q.capacity q.growth_rate - (q.capacity - q.front) + j) %
            growCapacity q.capacity q.growth_rate) =
          q.buffer ((q.front + j) % q.capacity)
        rw [congrFun hloop _]
        dsimp only
        rcases Nat.lt_or_ge j (q.capacity - q.front) with hjd | hjd
        · rw [Nat.mod_eq_of_lt (by omega), if_pos (by omega),
            Nat.mod_eq_of_lt (by omega)]
          have harg : growCapacity q.capacity q.growth_rate -
              (q.capacity - q.front) + j -
              (growCapacity q.capacity q.growth_rate - q.capacity) =
              q.front + j := by omega
          rw [harg, if_pos (by omega)]
        · have hmod := mod_small_double
            (a := growCapacity q.capacity q.growth_rate -
              (q.capacity - q.front) + j)
            (n := growCapacity q.capacity q.growth_rate) (by omega)
          rw [if_neg (by omega)] at hmod
          rw [hmod, if_neg (by omega), if_pos (by omega)]
          have hmod2 := mod_small_double (a := q.front + j) (n := q.capacity)
            (by omega)
          rw [if_neg (by omega)] at hmod2
          rw [hmod2]
          congr 1
          omega
    · -- the left portion `0 .. rear-1` is appended after the right portion
      rw [qua_grow_eq_copy q mem hUnlocked hr0 h5 h6]
      have hj0 : (q.capacity + 0) % growCapacity q.capacity q.growth_rate =
          q.capacity := by
        rw [Nat.add_zero, Nat.mod_eq_of_lt (by omega)]
      obtain ⟨hA, hB⟩ := copyLeftLoop_spec q.capacity
        (growCapacity q.capacity q.growth_rate) q.rear (by omega) (by omega)
        q.rear 0 (fun i => if i < q.capacity then q.buffer i else mem i)
        (by omega)
      rw [hj0] at hA hB
      refine ⟨rfl, ⟨by dsimp only; omega, by dsimp only; omega,
        by dsimp only; omega, ?_⟩, rfl, rfl, ?_, rfl, rfl, rfl⟩
      · show (q.capacity + q.rear) % growCapacity q.capacity q.growth_rate =
          (q.front + q.size) % growCapacity q.capacity q.growth_rate
        congr 1
        omega
      · unfold logicalSeq
        apply List.map_congr_left
        intro j hj
        rw [List.mem_range] at hj
        replace hj : j < q.size := hj
        show copyLeftLoop (growCapacity q.capacity q.growth_rate)
          (fun i => if i < q.capacity then q.buffer i else mem i)
          0 q.capacity q.rear
          ((q.front + j) % growCapacity q.capacity q.growth_rate) =
          q.buffer ((q.front + j) % q.capacity)
        rcases Nat.lt_or_ge (q.front + j) q.capacity with hfj | hfj
        · rw [Nat.mod_eq_of_lt (by omega), Nat.mod_eq_of_lt (by omega)]
          have hside : ∀ m, 0 ≤ m → m < 0 + q.rear →
              q.front + j ≠ (q.capacity + m) %
                growCapacity q.capacity q.growth_rate := by
            intro m hm1 hm2
            have hmod := mod_small_double (a := q.capacity + m)
              (n := growCapacity q.capacity q.growth_rate) (by omega)
            split at hmod <;> omega
          rw [hB (q.front + j) hside]
          rw [if_pos hfj]
        · have harg : (q.front + j) % growCapacity q.capacity q.growth_rate =
              (q.capacity + (q.front + j - q.capacity)) %
                growCapacity q.capacity q.growth_rate := by
            congr 1
            omega
          rw [harg, hA (q.front + j - q.capacity) (by omega) (by omega)]
          rw [if_pos (by omega)]
          have hmod2 := mod_small_double (a := q.front + j) (n := q.capacity)
            (by omega)
          rw [if_neg (by omega)] at hmod2
          rw [hmod2]

/-- Advancing an index circularly: the C idiom
`(i == capacity - 1) ? 0 : i + 1` equals `(i + 1) % capacity` for
`i < capacity`. -/
theorem advance_eq_mod {cap i : ℕ} (hcap : 0 < cap) (hi : i < cap) :
    (if i = cap - 1 then 0 else i + 1) = (i + 1) % cap := by
  split
  · next h =>
    rw [h, Nat.sub_add_cancel hcap, Nat.mod_self]
  · next h =>
    rw [Nat.mod_eq_of_lt (by omega)]

/-- The store step of `qua_enqueue` on a non-full queue appends the element
to the logical sequence, preserves the invariant and every untouched field,
and bumps `size` and `version_id`. -/
theorem enqStore_spec {α : Type} (q1 : QueueArray α) (x : Option α)
    (hInv : Inv q1) (hlt : q1.size < q1.capacity) :
    Inv (enqStore q1 x) ∧
    logicalSeq (enqStore q1 x) = logicalSeq q1 ++ [x] ∧
    (enqStore q1 x).locked = q1.locked ∧
    (enqStore q1 x).version_id = q1.version_id + 1 ∧
    (enqStore q1 x).size = q1.size + 1 ∧
    (enqStore q1 x).growth_rate = q1.growth_rate ∧
    (enqStore q1 x).capacity = q1.capacity := by
  obtain ⟨hcap, hsz, hfr, hre⟩ := hInv
  have hrear_lt : q1.rear < q1.capacity := by
    rw [hre]
    exact Nat.mod_lt _ hcap
  have hadv : (if q1.rear = q1.capacity - 1 then 0 else q1.rear + 1) =
      (q1.front + (q1.size + 1)) % q1.capacity := by
    rw [advance_eq_mod hcap hrear_lt, hre, Nat.mod_add_mod, Nat.add_assoc]
  refine ⟨⟨hcap, by dsimp only [enqStore]; omega,
    by dsimp only [enqStore]; exact hfr, ?_⟩, ?_, rfl, rfl, rfl, rfl, rfl⟩
  · show (if q1.rear = q1.capacity - 1 then 0 else q1.rear + 1) =
      (q1.front + (q1.size + 1)) % q1.capacity
    exact hadv
  · unfold logicalSeq
    show (List.range (q1.size + 1)).map
        (fun j => updFn q1.buffer q1.rear x ((q1.front + j) % q1.capacity)) =
      (List.range q1.size).map
        (fun j => q1.buffer ((q1.front + j) % q1.capacity)) ++ [x]
    rw [List.range_succ, List.map_append]
    congr 1
    · apply List.map_congr_left
      intro j hj
      rw [List.mem_range] at hj
      apply updFn_ne
      have hm1 := mod_small_double (a := q1.front + j) (n := q1.capacity)
        (by omega)
      have hm2 := mod_small_double (a := q1.front + q1.size) (n := q1.capacity)
        (by omega)
      rw [hre]
      split at hm1 <;> split at hm2 <;> omega
    · show [updFn q1.buffer q1.rear x ((q1.front + q1.size) % q1.capacity)] = [x]
      rw [← hre, updFn_self]

/-- `qua_enqueue` on a queue satisfying the invariant, unlocked, with a
successful reallocation: it succeeds and appends the element to the logical
sequence. -/
theorem qua_enqueue_spec {α : Type} (q : QueueArray α) (x : Option α)
    (mem : ℕ → Option α) (hInv : Inv q) (hUnlocked : q.locked = false) :
    (qua_enqueue q x true mem).1 = true ∧
    Inv (qua_enqueue q x true mem).2 ∧
    logicalSeq (qua_enqueue q x true mem).2 = logicalSeq q ++ [x] ∧
    (qua_enqueue q x true mem).2.locked = q.locked ∧
    (qua_enqueue q x true mem).2.version_id = q.version_id + 1 ∧
    (qua_enqueue q x true mem).2.size = q.size + 1 ∧
    (qua_enqueue q x true mem).2.growth_rate = q.growth_rate := by
  by_cases hfull : q.size = q.capacity
  · have hfb : qua_full q = true := by
      simp [qua_full, hfull]
    obtain ⟨hg1, hgInv, hgsz, hgcap, hgseq, hglk, hggr, hgver⟩ :=
      qua_grow_spec q mem hInv hfull hUnlocked
    have hge := growCapacity_ge q.capacity q.growth_rate
    have heq : qua_enqueue q x true mem =
        (true, enqStore (qua_grow q true mem).2 x) := by
      simp only [qua_enqueue, hfb, if_true, hg1, Bool.not_true,
        Bool.false_eq_true, if_false]
    obtain ⟨hsInv, hsseq, hslk, hsver, hssz, hsgr, hscap⟩ :=
      enqStore_spec (qua_grow q true mem).2 x hgInv (by omega)
    rw [heq]
    refine ⟨rfl, hsInv, ?_, ?_, ?_, ?_, ?_⟩
    · rw [hsseq, hgseq]
    · rw [hslk, hglk]
    · rw [hsver, hgver]
    · rw [hssz, hgsz]
    · rw [hsgr, hggr]
  · have hfb : qua_full q = false := by
      simp [qua_full, hfull]
    have heq : qua_enqueue q x true mem = (true, enqStore q x) := by
      simp only [qua_enqueue, hfb, Bool.false_eq_true, if_false,
        Bool.not_true, if_true]
    have hszle : q.size ≤ q.capacity := hInv.2.1
    obtain ⟨hsInv, hsseq, hslk, hsver, hssz, hsgr, hscap⟩ :=
      enqStore_spec q x hInv (by omega)
    rw [heq]
    exact ⟨rfl, hsInv, hsseq, hslk, hsver, hssz, hsgr⟩

/-- `qua_dequeue` on an empty queue: reports failure, hands out `NULL`,
changes nothing. -/
theorem qua_dequeue_empty {α : Type} (q : QueueArray α) (h : q.size = 0) :
    qua_dequeue q = (false, none, q) := by
  simp [qua_dequeue, qua_empty, h]

/-- `qua_dequeue` on a non-empty queue satisfying the invariant: it
succeeds, hands out the front element, and pops it off the logical
sequence. -/
theorem qua_dequeue_spec {α : Type} (q : QueueArray α)
    (hInv : Inv q) (hne : 0 < q.size) :
    (qua_dequeue q).1 = true ∧
    Inv (qua_dequeue q).2.2 ∧
    logicalSeq q = (qua_dequeue q).2.1 :: logicalSeq (qua_dequeue q).2.2 ∧
    (qua_dequeue q).2.1 = q.buffer q.front ∧
    (qua_dequeue q).2.2.locked = q.locked ∧
    (qua_dequeue q).2.2.version_id = q.version_id + 1 ∧
    (qua_dequeue q).2.2.size = q.size - 1 ∧
    (qua_dequeue q).2.2.growth_rate = q.growth_rate ∧
    (qua_dequeue q).2.2.capacity = q.capacity := by
  obtain ⟨hcap, hsz, hfr, hre⟩ := hInv
  have heb : qua_empty q = false := by
    simp only [qua_empty, beq_eq_false_iff_ne, ne_eq]
    omega
  have heq : qua_dequeue q = (true, q.buffer q.front, deqStore q) := by
    simp only [qua_dequeue, heb, Bool.false_eq_true, if_false]
  rw [heq]
  have hadv : (if q.front = q.capacity - 1 then 0 else q.front + 1) =
      (q.front + 1) % q.capacity := advance_eq_mod hcap hfr
  refine ⟨rfl, ⟨hcap, by show q.size - 1 ≤ q.capacity; omega, ?_, ?_⟩,
    ?_, rfl, rfl, rfl, rfl, rfl, rfl⟩
  · show (if q.front = q.capacity - 1 then 0 else q.front + 1) < q.capacity
    rw [hadv]
    exact Nat.mod_lt _ hcap
  · show q.rear = ((if q.front = q.capacity - 1 then 0 else q.front + 1) +
      (q.size - 1)) % q.capacity
    rw [hadv, Nat.mod_add_mod, hre]
    congr 1
    omega
  · show logicalSeq q = q.buffer q.front :: logicalSeq (deqStore q)
    unfold logicalSeq deqStore
    have hs : q.size = (q.size - 1) + 1 := by omega
    conv_lhs => rw [hs, List.range_succ_eq_map, List.map_cons, List.map_map]
    congr 1
    · show q.buffer ((q.front + 0) % q.capacity) = q.buffer q.front
      rw [Nat.add_zero, Nat.mod_eq_of_lt hfr]
    · apply List.map_congr_left
      intro j hj
      rw [List.mem_range] at hj
      replace hj : j < q.size - 1 := hj
      show q.buffer ((q.front + Nat.succ j) % q.capacity) =
        updFn q.buffer q.front none
          (((if q.front = q.capacity - 1 then 0 else q.front + 1) + j) %
            q.capacity)
      rw [hadv, Nat.mod_add_mod, updFn_ne]
      · congr 1
        congr 1
        omega
      · have hm1 := mod_small_double (a := q.front + 1 + j) (n := q.capacity)
          (by omega)
        split at hm1 <;> omega

/-- `qua_grow` on a locked queue fails before touching anything
(lines 710-711). -/
theorem qua_grow_locked {α : Type} (q : QueueArray α) (allocOk : Bool)
    (mem : ℕ → Option α) (hLocked : q.locked = true) :
    qua_grow q allocOk mem = (false, q) := by
  simp only [qua_grow, hLocked, if_true]

/-- `qua_grow` with a failing reallocation: the already-stored new capacity
is rolled back (lines 727-731), so the queue comes back exactly as it was. -/
theorem qua_grow_allocfail {α : Type} (q : QueueArray α)
    (mem : ℕ → Option α) (hUnlocked : q.locked = false) :
    qua_grow q false mem = (false, q) := by
  simp only [qua_grow]
  rw [if_neg (show ¬(q.locked = true) by simp [hUnlocked]),
    if_pos (show (!false) = true from rfl)]

/-- `qua_enqueue` on a full queue whose capacity is locked: the rejected
element is not stored, nothing is freed, and the queue is returned exactly
as it was. -/
theorem qua_enqueue_locked {α : Type} (q : QueueArray α) (x : Option α)
    (allocOk : Bool) (mem : ℕ → Option α)
    (hFull : q.size = q.capacity) (hLocked : q.locked = true) :
    qua_enqueue q x allocOk mem = (false, q) := by
  have hfb : qua_full q = true := by
    simp [qua_full, hFull]
  simp only [qua_enqueue, hfb, if_true,
    qua_grow_locked q allocOk mem hLocked, Bool.not_false, if_false]

/-- No branch of `qua_grow` touches `version_id`. -/
theorem qua_grow_version {α : Type} (q : QueueArray α) (allocOk : Bool)
    (mem : ℕ → Option α) :
    (qua_grow q allocOk mem).2.version_id = q.version_id := by
  simp only [qua_grow]
  repeat' split
  all_goals rfl

/-- Every successful `qua_enqueue` increments `version_id` by exactly 1,
whatever path it took through `qua_grow`. -/
theorem qua_enqueue_version {α : Type} (q : QueueArray α) (x : Option α)
    (allocOk : Bool) (mem : ℕ → Option α)
    (h : (qua_enqueue q x allocOk mem).1 = true) :
    (qua_enqueue q x allocOk mem).2.version_id = q.version_id + 1 := by
  have hgver := qua_grow_version q allocOk mem
  by_cases hfb : qua_full q = true
  · simp only [qua_enqueue, hfb, if_true] at h ⊢
    by_cases hg : (qua_grow q allocOk mem).1 = true
    · simp only [hg, Bool.not_true, Bool.false_eq_true, if_false] at h ⊢
      show (qua_grow q allocOk mem).2.version_id + 1 = q.version_id + 1
      rw [hgver]
    · rw [Bool.not_eq_true] at hg
      simp only [hg, Bool.not_false, if_true] at h
      cases h
  · rw [Bool.not_eq_true] at hfb
    simp only [qua_enqueue, hfb, Bool.false_eq_true, if_false,
      Bool.not_true, if_true] at h ⊢
    rfl

/-- Every successful `qua_dequeue` increments `version_id` by exactly 1. -/
theorem qua_dequeue_version {α : Type} (q : QueueArray α)
    (h : (qua_dequeue q).1 = true) :
    (qua_dequeue q).2.2.version_id = q.version_id + 1 := by
  by_cases he : qua_empty q = true
  · simp only [qua_dequeue, he, if_true] at h
    cases h
  · rw [Bool.not_eq_true] at he
    simp only [qua_dequeue, he, Bool.false_eq_true, if_false]
    rfl

/-- `qua_set_growth` never touches `version_id` (lines 329-338 contain no
increment). -/
theorem qua_set_growth_version {α : Type} (q : QueueArray α) (rate : ℤ) :
    (qua_set_growth q rate).2.version_id = q.version_id := by
  unfold qua_set_growth
  split
  · rfl
  · rfl

/-- `qua_erase` never touches `version_id` (lines 241-254 contain no
increment). -/
theorem qua_erase_version {α : Type} (q : QueueArray α) :
    (qua_erase q).2.version_id = q.version_id := rfl

/-- Characterization of the `qua_erase` loop: the freed pointers are the
`count` circular slots starting at `i`, in order, and the final buffer is
the original with exactly those slots nulled. -/
theorem eraseLoop_spec {α : Type} (cap : ℕ) :
    ∀ (count i : ℕ) (buf : ℕ → Option α), count ≤ cap → i < cap →
      (eraseLoop cap buf i count).1 =
        (List.range count).map (fun m => buf ((i + m) % cap)) ∧
      (eraseLoop cap buf i count).2 =
        fun x => if ∃ m, m < count ∧ x = (i + m) % cap then none else buf x := by
  intro count
  induction count with
  | zero =>
    intro i buf hcnt hi
    constructor
    · rfl
    · funext x
      rw [if_neg]
      · rfl
      · rintro ⟨m, hm, _⟩
        omega
  | succ c ih =>
    intro i buf hcnt hi
    have hidx : ∀ m : ℕ, ((i + 1) % cap + m) % cap = (i + (m + 1)) % cap := by
      intro m
      rw [Nat.mod_add_mod]
      congr 1
      omega
    obtain ⟨ih1, ih2⟩ := ih ((i + 1) % cap) (updFn buf i none) (by omega)
      (Nat.mod_lt _ (by omega))
    constructor
    · show buf i :: (eraseLoop cap (updFn buf i none) ((i + 1) % cap) c).1 =
        (List.range (c + 1)).map (fun m => buf ((i + m) % cap))
      rw [List.range_succ_eq_map, List.map_cons, List.map_map, ih1]
      congr 1
      · rw [Nat.add_zero, Nat.mod_eq_of_lt hi]
      · apply List.map_congr_left
        intro m hm
        rw [List.mem_range] at hm
        rw [hidx m]
        show updFn buf i none ((i + (m + 1)) % cap) =
          buf ((i + Nat.succ m) % cap)
        rw [updFn_ne]
        have hm1 := mod_small_double (a := i + (m + 1)) (n := cap) (by omega)
        split at hm1 <;> omega
    · show (eraseLoop cap (updFn buf i none) ((i + 1) % cap) c).2 =
        fun x => if ∃ m, m < c + 1 ∧ x = (i + m) % cap then none else buf x
      rw [ih2]
      funext x
      by_cases hx : ∃ m, m < c + 1 ∧ x = (i + m) % cap
      · rw [if_pos hx]
        obtain ⟨m0, hm0, hxe⟩ := hx
        match m0, hm0, hxe with
        | 0, hm0, hxe =>
          rw [if_neg]
          · rw [hxe, Nat.add_zero, Nat.mod_eq_of_lt hi, updFn_self]
          · rintro ⟨m, hm, he⟩
            rw [hidx m] at he
            rw [Nat.add_zero, Nat.mod_eq_of_lt hi] at hxe
            have hm1 := mod_small_double (a := i + (m + 1)) (n := cap)
              (by omega)
            split at hm1 <;> omega
        | m' + 1, hm0, hxe =>
          rw [if_pos ⟨m', by omega, by rw [hidx m']; exact hxe⟩]
      · rw [if_neg hx, if_neg, updFn_ne]
        · intro he
          exact hx ⟨0, by omega, by rw [Nat.add_zero, Nat.mod_eq_of_lt hi]; exact he⟩
        · rintro ⟨m, hm, he⟩
          exact hx ⟨m + 1, by omega, by rw [← hidx m]; exact he⟩

/-- `qua_erase` frees exactly the logical sequence, in order, nulls exactly
the occupied slots, and leaves every field of the structure — including
`size`, the indices and `version_id` — unchanged. -/
theorem qua_erase_spec {α : Type} (q : QueueArray α) (hInv : Inv q) :
    (qua_erase q).1 = logicalSeq q ∧
    logicalSeq (qua_erase q).2 = List.replicate q.size none ∧
    (∀ x, (∀ j, j < q.size → x ≠ (q.front + j) % q.capacity) →
      (qua_erase q).2.buffer x = q.buffer x) ∧
    (qua_erase q).2.size = q.size ∧
    (qua_erase q).2.front = q.front ∧
    (qua_erase q).2.rear = q.rear ∧
    (qua_erase q).2.capacity = q.capacity ∧
    (qua_erase q).2.growth_rate = q.growth_rate ∧
    (qua_erase q).2.locked = q.locked ∧
    (qua_erase q).2.version_id = q.version_id := by
  obtain ⟨hcap, hsz, hfr, hre⟩ := hInv
  obtain ⟨h1, h2⟩ := eraseLoop_spec q.capacity q.size q.front q.buffer hsz hfr
  refine ⟨h1, ?_, ?_, rfl, rfl, rfl, rfl, rfl, rfl, rfl⟩
  · show (List.range q.size).map
        (fun j => (eraseLoop q.capacity q.buffer q.front q.size).2
          ((q.front + j) % q.capacity)) = List.replicate q.size none
    have hlen : List.replicate q.size (none : Option α) =
        (List.range q.size).map (fun _ => none) := by
      rw [List.map_const', List.length_range]
    rw [hlen]
    apply List.map_congr_left
    intro j hj
    rw [List.mem_range] at hj
    rw [congrFun h2 _, if_pos ⟨j, hj, rfl⟩]
  · intro x hx
    show (eraseLoop q.capacity q.buffer q.front q.size).2 x = q.buffer x
    rw [congrFun h2 x, if_neg]
    rintro ⟨m, hm, he⟩
    exact hx m hm he

/-! ## Operation sequences -/

/-- An enqueue/dequeue request, for reasoning about arbitrary interleavings. -/
inductive QOp (α : Type) where
  | enq (x : Option α)
  | deq

/-- Runs a list of requests left to right.  Returns the final queue, the
list of successfully enqueued elements in order, and the list of elements
returned by successful dequeues in order.  Reallocation always succeeds and
fresh memory is all-`NULL` (its content is irrelevant: no claim reads it). -/
def qua_run {α : Type} : List (QOp α) → QueueArray α →
    QueueArray α × List (Option α) × List (Option α)
  | [], q => (q, [], [])
  | QOp.enq x :: rest, q =>
    let r := qua_enqueue q x true (fun _ => none)
    let t := qua_run rest r.2
    (t.1, if r.1 then x :: t.2.1 else t.2.1, t.2.2)
  | QOp.deq :: rest, q =>
    let r := qua_dequeue q
    let t := qua_run rest r.2.2
    (t.1, t.2.1, if r.1 then r.2.1 :: t.2.2 else t.2.2)

/-- The length of the logical sequence is the size. -/
theorem logicalSeq_length {α : Type} (q : QueueArray α) :
    (logicalSeq q).length = q.size := by
  simp [logicalSeq]

/-- Conservation through any run from an unlocked invariant-satisfying
queue: the successful dequeues followed by the remaining logical content
are exactly the initial logical content followed by the successful
enqueues, and the structural invariant is maintained. -/
theorem qua_run_spec {α : Type} :
    ∀ (ops : List (QOp α)) (q : QueueArray α), Inv q → q.locked = false →
      Inv (qua_run ops q).1 ∧ (qua_run ops q).1.locked = false ∧
      (qua_run ops q).2.2 ++ logicalSeq (qua_run ops q).1 =
        logicalSeq q ++ (qua_run ops q).2.1 := by
  intro ops
  induction ops with
  | nil =>
    intro q hInv hlk
    exact ⟨hInv, hlk, by simp [qua_run]⟩
  | cons op rest ih =>
    intro q hInv hlk
    cases op with
    | enq x =>
      obtain ⟨he1, heInv, heseq, helk, hever, hesz, hegr⟩ :=
        qua_enqueue_spec q x (fun _ => none) hInv hlk
      obtain ⟨tInv, tlk, tseq⟩ :=
        ih (qua_enqueue q x true (fun _ => none)).2 heInv (helk.trans hlk)
      refine ⟨tInv, tlk, ?_⟩
      simp only [qua_run]
      rw [if_pos he1, tseq, heseq, List.append_assoc, List.singleton_append]
    | deq =>
      by_cases hsz : q.size = 0
      · have heq := qua_dequeue_empty q hsz
        obtain ⟨tInv, tlk, tseq⟩ := ih (qua_dequeue q).2.2
          (by rw [heq]; exact hInv) (by rw [heq]; exact hlk)
        refine ⟨tInv, tlk, ?_⟩
        simp only [qua_run]
        rw [if_neg (by rw [heq]; exact Bool.false_ne_true), tseq, heq]
      · obtain ⟨hd1, hdInv, hdseq, hdres, hdlk, hdver, hdsz, hdgr, hdcap⟩ :=
          qua_dequeue_spec q hInv (by omega)
        obtain ⟨tInv, tlk, tseq⟩ := ih (qua_dequeue q).2.2 hdInv (hdlk.trans hlk)
        refine ⟨tInv, tlk, ?_⟩
        simp only [qua_run]
        rw [if_pos hd1, hdseq, List.cons_append, tseq]
        rfl

/-- A queue produced by `qua_create` satisfies the invariant, is unlocked,
and is empty. -/
theorem qua_create_props {α : Type} (c g : ℤ) (mem : ℕ → Option α)
    (q0 : QueueArray α) (h : qua_create c g mem = some q0) :
    Inv q0 ∧ q0.locked = false ∧ q0.size = 0 ∧ q0.version_id = 0 ∧
    q0.capacity = c.toNat ∧ q0.growth_rate = g.toNat := by
  unfold qua_create at h
  split at h
  · cases h
  · next hcond =>
    rw [Option.some_inj] at h
    rw [not_or] at hcond
    subst h
    refine ⟨⟨?_, ?_, ?_, ?_⟩, rfl, rfl, rfl, rfl, rfl⟩
    · show 0 < c.toNat
      omega
    · show (0 : ℕ) ≤ c.toNat
      exact Nat.zero_le _
    · show 0 < c.toNat
      omega
    · show (0 : ℕ) = (0 + 0) % c.toNat
      rw [Nat.add_zero, Nat.zero_mod]

/-- A queue produced by `qua_new` satisfies the invariant, is unlocked, and
is empty. -/
theorem qua_new_props {α : Type} (mem : ℕ → Option α) :
    Inv (qua_new mem) ∧ (qua_new mem).locked = false ∧
    (qua_new mem).size = 0 ∧ (qua_new mem).version_id = 0 ∧
    (qua_new mem).capacity = 32 ∧ (qua_new mem).growth_rate = 200 :=
  ⟨⟨show 0 < 32 by decide, show (0 : ℕ) ≤ 32 by decide,
    show 0 < 32 by decide, show (0 : ℕ) = (0 + 0) % 32 by decide⟩,
    rfl, rfl, rfl, rfl, rfl⟩

/-- An empty queue has an empty logical sequence. -/
theorem logicalSeq_empty {α : Type} (q : QueueArray α) (h : q.size = 0) :
    logicalSeq q = [] := by
  unfold logicalSeq
  rw [h]
  rfl

/-! ## Concrete queues used by witnesses and counterexamples -/

/-- A full wrapped queue: capacity 4, `front = rear = 2`, logical content
`[1, 2, 3, 4]` spanning the physical end of the buffer. -/
def qWrap : QueueArray ℤ where
  buffer := fun i =>
    if i = 0 then some 3 else if i = 1 then some 4
    else if i = 2 then some 1 else if i = 3 then some 2 else none
  front := 2
  rear := 2
  size := 4
  capacity := 4
  growth_rate := 200
  locked := false
  version_id := 0

/-- A full queue with capacity 45 and growth rate 140, where the double
arithmetic of `qua_grow` rounds below the exact `floor(45*140/100)`. -/
def qRound : QueueArray ℤ where
  buffer := fun _ => none
  front := 0
  rear := 0
  size := 45
  capacity := 45
  growth_rate := 140
  locked := false
  version_id := 0

/-- A full locked queue with capacity 2. -/
def qLocked : QueueArray ℤ where
  buffer := fun i => if i = 0 then some 8 else if i = 1 then some 9 else none
  front := 0
  rear := 0
  size := 2
  capacity := 2
  growth_rate := 200
  locked := true
  version_id := 5

/-- A non-empty queue with one element `7` at the front. -/
def qOne : QueueArray ℤ where
  buffer := fun i => if i = 0 then some 7 else none
  front := 0
  rear := 1
  size := 1
  capacity := 4
  growth_rate := 200
  locked := false
  version_id := 3

/-- A non-empty queue with `front = 1`: content `[10, 20]` at slots 1, 2. -/
def qMid : QueueArray ℤ where
  buffer := fun i => if i = 1 then some 10 else if i = 2 then some 20 else none
  front := 1
  rear := 3
  size := 2
  capacity := 4
  growth_rate := 200
  locked := false
  version_id := 0

/-- A deep-copy capability: `copy(p)` returns a fresh pointer, modelled as
the successor value so that copies are observably distinct from originals. -/
def copyInc : Option ℤ → Option ℤ := fun v => v.map (fun z => z + 1)

/-! ## Claim theorems -/

/-- C1: for every full, unlocked queue (any front/rear combination,
wrapped or not) a successful `qua_grow` is a pure re-layout: it succeeds,
the occupied region is again `size` contiguous-circular slots starting at
the possibly updated `front` (the preserved invariant), and the logical
front-to-rear sequence of element pointers is unchanged. -/
theorem C1_grow_pure_relayout {α : Type} (q : QueueArray α)
    (mem : ℕ → Option α) (hInv : Inv q) (hFull : q.size = q.capacity)
    (hUnlocked : q.locked = false) :
    (qua_grow q true mem).1 = true ∧
    Inv (qua_grow q true mem).2 ∧
    (qua_grow q true mem).2.size = q.size ∧
    logicalSeq (qua_grow q true mem).2 = logicalSeq q := by
  obtain ⟨h1, h2, h3, _, h5, _⟩ := qua_grow_spec q mem hInv hFull hUnlocked
  exact ⟨h1, h2, h3, h5⟩

/-- C1 witness: the wrapped queue `qWrap` is full and unlocked and keeps
its logical sequence `[1, 2, 3, 4]` through `qua_grow`. -/
theorem C1_grow_pure_relayout_witness :
    Inv qWrap ∧ qWrap.size = qWrap.capacity ∧ qWrap.locked = false ∧
    ((qua_grow qWrap true (fun _ => none)).1 = true ∧
     Inv (qua_grow qWrap true (fun _ => none)).2 ∧
     (qua_grow qWrap true (fun _ => none)).2.size = qWrap.size ∧
     logicalSeq (qua_grow qWrap true (fun _ => none)).2 = logicalSeq qWrap) :=
  ⟨by decide, by decide, by decide,
    C1_grow_pure_relayout qWrap (fun _ => none) (by decide) (by decide)
      (by decide)⟩

/-- C2: on any queue freshly built by `qua_create` or `qua_new`, for any
interleaving of enqueues and dequeues, the successful dequeues return
exactly the oldest successfully enqueued elements in enqueue order (strict
FIFO: the dequeue list is a prefix of the enqueue list), and after `k`
successful enqueues and `j ≤ k` successful dequeues `qua_size` returns
`k - j`. -/
theorem C2_fifo_and_size {α : Type} (ops : List (QOp α)) (q0 : QueueArray α)
    (h : (∃ c g mem, qua_create c g mem = some q0) ∨
         (∃ mem, q0 = qua_new mem)) :
    (qua_run ops q0).2.2 =
      (qua_run ops q0).2.1.take (qua_run ops q0).2.2.length ∧
    (qua_run ops q0).2.2.length ≤ (qua_run ops q0).2.1.length ∧
    qua_size (qua_run ops q0).1 =
      (qua_run ops q0).2.1.length - (qua_run ops q0).2.2.length := by
  have hprops : Inv q0 ∧ q0.locked = false ∧ q0.size = 0 := by
    rcases h with ⟨c, g, mem, hc⟩ | ⟨mem, hn⟩
    · obtain ⟨a, b, c', _⟩ := qua_create_props c g mem q0 hc
      exact ⟨a, b, c'⟩
    · subst hn
      obtain ⟨a, b, c', _⟩ := qua_new_props mem
      exact ⟨a, b, c'⟩
  obtain ⟨hI, hlk, hsz⟩ := hprops
  obtain ⟨fInv, flk, fseq⟩ := qua_run_spec ops q0 hI hlk
  rw [logicalSeq_empty q0 hsz, List.nil_append] at fseq
  refine ⟨?_, ?_, ?_⟩
  · rw [← fseq, List.take_left]
  · rw [← fseq, List.length_append]
    omega
  · have hlen : (qua_run ops q0).2.1.length =
        (qua_run ops q0).2.2.length +
        (logicalSeq (qua_run ops q0).1).length := by
      rw [← fseq, List.length_append]
    rw [logicalSeq_length] at hlen
    show (qua_run ops q0).1.size = _
    omega

/-- C2 witness: on a queue created with capacity 2 and rate 101, the run
enqueue 5, enqueue 6, enqueue 7 (forcing growth), dequeue satisfies the
FIFO and size properties. -/
theorem C2_fifo_and_size_witness :
    ((qua_run [QOp.enq (some 5), QOp.enq (some 6), QOp.enq (some 7), QOp.deq]
        (qua_new (fun _ => none) : QueueArray ℤ)).2.2 =
      (qua_run [QOp.enq (some 5), QOp.enq (some 6), QOp.enq (some 7), QOp.deq]
        (qua_new (fun _ => none) : QueueArray ℤ)).2.1.take
        (qua_run [QOp.enq (some 5), QOp.enq (some 6), QOp.enq (some 7), QOp.deq]
          (qua_new (fun _ => none) : QueueArray ℤ)).2.2.length) ∧
    qua_size (qua_run [QOp.enq (some 5), QOp.enq (some 6), QOp.enq (some 7),
      QOp.deq] (qua_new (fun _ => none) : QueueArray ℤ)).1 = 3 - 1 := by
  obtain ⟨h1, _, h3⟩ := C2_fifo_and_size
    [QOp.enq (some 5), QOp.enq (some 6), QOp.enq (some 7), QOp.deq]
    (qua_new (fun _ => none) : QueueArray ℤ)
    (Or.inr ⟨fun _ => none, rfl⟩)
  refine ⟨h1, ?_⟩
  rw [h3]
  decide

/-- C5 counterexample: `qRound` is full (capacity 45, growth rate 140) and
unlocked, `floor(45*140/100) = 63` with an increase of `18 ≥ 4`, so the
claim demands a post-growth capacity of exactly 63 — but the successful
`qua_grow` sets the capacity to 62, because `140/100.0` rounds below `1.4`
in binary64 and `(integer_t)(45 * (double)1.4)` truncates `62.999…`. -/
theorem C5_grow_capacity_counterexample :
    qRound.size = qRound.capacity ∧ qRound.locked = false ∧
    qRound.capacity * qRound.growth_rate / 100 = 63 ∧
    ¬((qRound.capacity * qRound.growth_rate / 100 : ℤ) -
        qRound.capacity < 4) ∧
    (qua_grow qRound true (fun _ => none)).1 = true ∧
    (qua_grow qRound true (fun _ => none)).2.capacity = 62 := by
  refine ⟨by decide, by decide, by decide, by decide, by decide, by decide⟩

/-- C5 amended: for every full, unlocked queue with capacity `C` and growth
rate `R`, a successful `qua_grow` sets the capacity to exactly `C + 4` when
`T - C < 4`, and to exactly `T` otherwise, where
`T = (integer_t)((double)C * ((double)R / 100.0))` is the truncated IEEE-754
binary64 product (which can fall one below the exact `floor(C*R/100)`).
In particular, with `C = 4` and `R = 101` the post-growth capacity is 8. -/
theorem C5_grow_capacity_amended {α : Type} (q : QueueArray α)
    (mem : ℕ → Option α) (hInv : Inv q) (hFull : q.size = q.capacity)
    (hUnlocked : q.locked = false) :
    ((qua_grow q true mem).1 = true ∧
     (qua_grow q true mem).2.capacity =
       (if (dtrunc (dmul (int2double q.capacity)
             (ddiv (int2double q.growth_rate) (int2double 100))) : ℤ) -
             q.capacity < 4
        then q.capacity + 4
        else dtrunc (dmul (int2double q.capacity)
             (ddiv (int2double q.growth_rate) (int2double 100))))) ∧
    growCapacity 4 101 = 8 := by
  obtain ⟨h1, _, _, h4, _⟩ := qua_grow_spec q mem hInv hFull hUnlocked
  exact ⟨⟨h1, h4⟩, by decide⟩

/-- C5 witness: the amended statement at the full wrapped queue `qWrap`
(capacity 4, growth rate 200): the computed capacity is 8. -/
theorem C5_grow_capacity_amended_witness :
    ((qua_grow qWrap true (fun _ => none)).1 = true ∧
     (qua_grow qWrap true (fun _ => none)).2.capacity =
       (if (dtrunc (dmul (int2double qWrap.capacity)
             (ddiv (int2double qWrap.growth_rate) (int2double 100))) : ℤ) -
             qWrap.capacity < 4
        then qWrap.capacity + 4
        else dtrunc (dmul (int2double qWrap.capacity)
             (ddiv (int2double qWrap.growth_rate) (int2double 100))))) ∧
    growCapacity 4 101 = 8 :=
  C5_grow_capacity_amended qWrap (fun _ => none) (by decide) (by decide)
    (by decide)

/-- C6: on a full, unlocked queue, when the `realloc` inside `qua_grow`
fails, `qua_grow` reports failure and returns the queue in exactly its
prior state — the briefly updated capacity is rolled back and the buffer,
indices, size, growth rate and lock flag are untouched. -/
theorem C6_grow_allocfail_rollback {α : Type} (q : QueueArray α)
    (mem : ℕ → Option α) (_hFull : q.size = q.capacity)
    (hUnlocked : q.locked = false) :
    qua_grow q false mem = (false, q) :=
  qua_grow_allocfail q mem hUnlocked

/-- C6 witness: allocation failure on the full wrapped queue `qWrap`. -/
theorem C6_grow_allocfail_rollback_witness :
    qua_grow qWrap false (fun _ => none) = (false, qWrap) :=
  C6_grow_allocfail_rollback qWrap (fun _ => none) (by decide) (by decide)

/-- C7: `qua_enqueue` on a full queue whose capacity is locked fails and
returns the queue in exactly its prior state: the rejected element is never
stored and nothing is freed (the model frees nothing in this path and the
state, buffer included, is unchanged). -/
theorem C7_enqueue_full_locked {α : Type} (q : QueueArray α) (x : Option α)
    (allocOk : Bool) (mem : ℕ → Option α)
    (hFull : q.size = q.capacity) (hLocked : q.locked = true) :
    qua_enqueue q x allocOk mem = (false, q) :=
  qua_enqueue_locked q x allocOk mem hFull hLocked

/-- C7 witness: enqueueing into the full locked queue `qLocked` fails and
leaves it untouched. -/
theorem C7_enqueue_full_locked_witness :
    qua_enqueue qLocked (some 99) true (fun _ => none) = (false, qLocked) :=
  C7_enqueue_full_locked qLocked (some 99) true (fun _ => none)
    (by decide) (by decide)

/-- C8 counterexample: a successful `qua_set_growth` on a fresh queue does
not strictly increase `version_id` (it leaves it at 0), refuting the claim
that every successful `qua_set_growth` increments the version counter. -/
theorem C8_version_counterexample :
    (qua_set_growth (qua_new (fun _ => none) : QueueArray ℤ) 300).1 = true ∧
    ¬((qua_new (fun _ => none) : QueueArray ℤ).version_id <
      (qua_set_growth (qua_new (fun _ => none) : QueueArray ℤ) 300).2.version_id) := by
  refine ⟨by decide, by decide⟩

/-- C8 amended: each successful `qua_enqueue` and each successful
`qua_dequeue` increments `version_id` by exactly 1 — so `version_id` is
monotonically increasing over enqueue/dequeue sequences — while
`qua_set_growth` (even when successful) and `qua_erase` leave `version_id`
unchanged. -/
theorem C8_version_amended {α : Type} :
    (∀ (q : QueueArray α) (x : Option α) (allocOk : Bool)
        (mem : ℕ → Option α), (qua_enqueue q x allocOk mem).1 = true →
      (qua_enqueue q x allocOk mem).2.version_id = q.version_id + 1) ∧
    (∀ q : QueueArray α, (qua_dequeue q).1 = true →
      (qua_dequeue q).2.2.version_id = q.version_id + 1) ∧
    (∀ (q : QueueArray α) (rate : ℤ),
      (qua_set_growth q rate).2.version_id = q.version_id) ∧
    (∀ q : QueueArray α, (qua_erase q).2.version_id = q.version_id) :=
  ⟨fun q x allocOk mem h => qua_enqueue_version q x allocOk mem h,
   fun q h => qua_dequeue_version q h,
   fun q rate => qua_set_growth_version q rate,
   fun q => qua_erase_version q⟩

/-- C8 witness: a successful enqueue on a fresh queue moves `version_id`
from 0 to 1, and a successful dequeue on `qOne` moves it from 3 to 4. -/
theorem C8_version_amended_witness :
    (qua_enqueue (qua_new (fun _ => none) : QueueArray ℤ) (some 1) true
      (fun _ => none)).2.version_id =
      (qua_new (fun _ => none) : QueueArray ℤ).version_id + 1 ∧
    (qua_dequeue qOne).2.2.version_id = qOne.version_id + 1 :=
  ⟨(C8_version_amended (α := ℤ)).1 (qua_new (fun _ => none)) (some 1) true
      (fun _ => none) (by decide),
   (C8_version_amended (α := ℤ)).2.1 qOne (by decide)⟩

/-- C9: `qua_erase` frees (hands to the `free` capability) exactly the
`size` occupied logical slots, in order, nulls those slots, and leaves
`size`, `front`, `rear`, `capacity`, `growth_rate`, `locked` and
`version_id` unchanged — so a previously non-empty queue still reports
non-empty and the next dequeue succeeds, returning `NULL`. -/
theorem C9_erase_frame {α : Type} (q : QueueArray α) (hInv : Inv q) :
    (qua_erase q).1 = logicalSeq q ∧
    logicalSeq (qua_erase q).2 = List.replicate q.size none ∧
    (qua_erase q).2.size = q.size ∧
    (qua_erase q).2.front = q.front ∧
    (qua_erase q).2.rear = q.rear ∧
    (qua_erase q).2.capacity = q.capacity ∧
    (qua_erase q).2.growth_rate = q.growth_rate ∧
    (qua_erase q).2.locked = q.locked ∧
    (qua_erase q).2.version_id = q.version_id ∧
    (0 < q.size →
      qua_empty (qua_erase q).2 = false ∧
      (qua_dequeue (qua_erase q).2).1 = true ∧
      (qua_dequeue (qua_erase q).2).2.1 = none) := by
  obtain ⟨hfreed, hseq, huntouched, hsz, hfr, hrr, hcp, hgr, hlk, hver⟩ :=
    qua_erase_spec q hInv
  obtain ⟨hcap0, hsz0, hfr0, hre0⟩ := hInv
  refine ⟨hfreed, hseq, hsz, hfr, hrr, hcp, hgr, hlk, hver, ?_⟩
  intro hpos
  have hInv2 : Inv (qua_erase q).2 := by
    rw [Inv, hsz, hfr, hrr, hcp]
    exact ⟨hcap0, hsz0, hfr0, hre0⟩
  obtain ⟨hd1, _, _, hdres, _⟩ :=
    qua_dequeue_spec (qua_erase q).2 hInv2 (by omega)
  refine ⟨?_, hd1, ?_⟩
  · show ((qua_erase q).2.size == 0) = false
    rw [hsz]
    simp only [beq_eq_false_iff_ne, ne_eq]
    omega
  · rw [hdres, hfr]
    obtain ⟨_, h2⟩ := eraseLoop_spec q.capacity q.size q.front q.buffer
      hsz0 hfr0
    show (eraseLoop q.capacity q.buffer q.front q.size).2 q.front = none
    have hfp : q.front = (q.front + 0) % q.capacity := by
      rw [Nat.add_zero, Nat.mod_eq_of_lt hfr0]
    rw [congrFun h2 q.front, if_pos ⟨0, by omega, hfp⟩]

/-- C9 witness: erasing `qOne` frees `[7]`, keeps size 1, and the next
dequeue succeeds returning `NULL`. -/
theorem C9_erase_frame_witness :
    (qua_erase qOne).1 = logicalSeq qOne ∧
    logicalSeq (qua_erase qOne).2 = List.replicate qOne.size none ∧
    (qua_erase qOne).2.size = qOne.size ∧
    (qua_erase qOne).2.front = qOne.front ∧
    (qua_erase qOne).2.rear = qOne.rear ∧
    (qua_erase qOne).2.capacity = qOne.capacity ∧
    (qua_erase qOne).2.growth_rate = qOne.growth_rate ∧
    (qua_erase qOne).2.locked = qOne.locked ∧
    (qua_erase qOne).2.version_id = qOne.version_id ∧
    (0 < qOne.size →
      qua_empty (qua_erase qOne).2 = false ∧
      (qua_dequeue (qua_erase qOne).2).1 = true ∧
      (qua_dequeue (qua_erase qOne).2).2.1 = none) :=
  C9_erase_frame qOne (by decide)

/-- C3: evaluation of `qua_copy` at a queue holding the single element `7`.
The claim demands a copied queue whose logical sequence is
`[copy 7] = [8]`, but the loop bound `j < size - 1` (line 509) copies only
`size - 1` elements, so the copy's only occupied slot holds `NULL` —
`qua_copy` loses the rear element, contradicting its own documentation
("All elements are copied"). -/
theorem C3_copy_drops_rear_element :
    logicalSeq qOne = [some 7] ∧
    copyInc (some 7) = some 8 ∧
    (qua_copy qOne copyInc (fun _ => none)).isSome = true ∧
    Option.map logicalSeq (qua_copy qOne copyInc (fun _ => none)) =
      some [none] ∧
    Option.map logicalSeq (qua_copy qOne copyInc (fun _ => none)) ≠
      some [copyInc (some 7)] ∧
    Option.map (fun r => (r.size, r.front, r.rear, r.capacity,
        r.growth_rate, r.locked))
      (qua_copy qOne copyInc (fun _ => none)) =
      some (qOne.size, qOne.front, qOne.rear, qOne.capacity,
        qOne.growth_rate, qOne.locked) := by
  refine ⟨by decide, by decide, by decide, by decide, by decide, by decide⟩

/-- C4: evaluation of `qua_to_array` at `qMid` (front 1, content
`[10, 20]`).  The claim demands the output array entry at logical position
`j` to hold the copy of the `j`-th logical element — stores at positions
`[0, 1]` — but the loop stores at `array[i]` with `i` the circular buffer
index (line 621), producing stores at positions `[1, 2]`; position 2 is
even out of bounds of the `size = 2` allocation. -/
theorem C4_to_array_wrong_indices :
    logicalSeq qMid = [some 10, some 20] ∧
    qua_to_array qMid copyInc = some ([(1, some 11), (2, some 21)], 2) ∧
    Option.map (fun r => r.1.map Prod.fst) (qua_to_array qMid copyInc) ≠
      some [0, 1] ∧
    ¬(∀ p ∈ [(1, (some 11 : Option ℤ)), (2, some 21)], p.1 < 2) := by
  refine ⟨by decide, by decide, by decide, by decide⟩

/-! ## RedBlackTree

`RedBlackTree.c` is not among the provided sources — only its tests
(`src/tests/RedBlackTreeTests.c`) and the specification describe it — so
the tree and its two mutating operations are modelled from the spec
(sections 3 and 4.1).  The spec's imperative parent-pointer fixup loops are
rendered as the equivalent functional rebalancing steps over the same case
analysis: the insert fixup's recolor/rotation cases and the delete fixup's
sibling cases (sibling red; sibling black with black children; near/far
nephew cases). -/

/-- Modelled from the spec: the node color `Red | Black` of the missing
`RedBlackTree.c`. -/
inductive RBColor where
  | red
  | black
deriving DecidableEq

/-- Modelled from the spec: a tree node `{key, color, left, right}` of the
missing `RedBlackTree.c`; the parent back-reference is non-owning and is
represented by the recursion itself. -/
inductive RBT (α : Type) where
  | nil
  | node (c : RBColor) (l : RBT α) (k : α) (r : RBT α)
deriving DecidableEq

namespace RBT

/-- Number of nodes, used for termination of `joinTrees`. -/
@[simp] def size {α : Type} : RBT α → ℕ
  | nil => 0
  | node _ l _ r => size l + size r + 1

/-- The color of the root (`black` for the empty tree). -/
def colorOf {α : Type} : RBT α → RBColor
  | nil => RBColor.black
  | node c _ _ _ => c

/-- Whether the tree is a black node (the empty tree is not). -/
def isBlackNode {α : Type} : RBT α → Bool
  | node RBColor.black _ _ _ => true
  | _ => false

/-- Modelled from the spec: "force root Black unconditionally at the
end". -/
def paintBlack {α : Type} : RBT α → RBT α
  | nil => nil
  | node _ l k r => node RBColor.black l k r

/-- Recolor the root red (used by the delete fixup's recoloring step). -/
def setRed {α : Type} : RBT α → RBT α
  | nil => nil
  | node _ l k r => node RBColor.red l k r

/-- Modelled from the spec: the insert fixup for a red-red violation in the
left child — recolor when both grandchildren patterns are red-red, rotate
right at the grandparent otherwise (spec 4.1, insert-fixup left cases). -/
def baliL {α : Type} : RBT α → α → RBT α → RBT α
  | node RBColor.red (node RBColor.red t1 a t2) b t3, c, t4 =>
    node RBColor.red (node RBColor.black t1 a t2) b (node RBColor.black t3 c t4)
  | node RBColor.red t1 a (node RBColor.red t2 b t3), c, t4 =>
    node RBColor.red (node RBColor.black t1 a t2) b (node RBColor.black t3 c t4)
  | l, k, r => node RBColor.black l k r

/-- Modelled from the spec: the insert fixup for a red-red violation in the
right child (mirror of `baliL`). -/
def baliR {α : Type} : RBT α → α → RBT α → RBT α
  | t1, a, node RBColor.red t2 b (node RBColor.red t3 c t4) =>
    node RBColor.red (node RBColor.black t1 a t2) b (node RBColor.black t3 c t4)
  | t1, a, node RBColor.red (node RBColor.red t2 b t3) c t4 =>
    node RBColor.red (node RBColor.black t1 a t2) b (node RBColor.black t3 c t4)
  | l, k, r => node RBColor.black l k r

/-- Modelled from the spec: BST descent ("go left if compare < 0, else
right"), new node colored red, rebalancing on the way back up. -/
def ins {α : Type} [LinearOrder α] (x : α) : RBT α → RBT α
  | nil => node RBColor.red nil x nil
  | node RBColor.black l k r =>
    if x < k then baliL (ins x l) k r
    else if k < x then baliR l k (ins x r)
    else node RBColor.black l k r
  | node RBColor.red l k r =>
    if x < k then node RBColor.red (ins x l) k r
    else if k < x then node RBColor.red l k (ins x r)
    else node RBColor.red l k r

/-- Modelled from the spec: BST search with the user comparator. -/
def contains {α : Type} [LinearOrder α] (x : α) : RBT α → Bool
  | nil => false
  | node _ l k r =>
    if x < k then contains x l
    else if k < x then contains x r
    else true

/-- Modelled from the spec: `rbt_insert` "fails (no-op, returns failure
indicator) if an equal key already exists; otherwise allocate new node
colored Red, place via BST descent, run the insert-fixup, force root
Black". -/
def rbt_insert {α : Type} [LinearOrder α] (t : RBT α) (x : α) :
    Bool × RBT α :=
  if contains x t then (false, t) else (true, paintBlack (ins x t))

/-- Modelled from the spec: delete fixup when the left subtree lost one
black node ("double-black" on the left) — the sibling-red, sibling-black
with black children, and near/far nephew cases of spec 4.1. -/
def baldL {α : Type} : RBT α → α → RBT α → RBT α
  | node RBColor.red t1 a t2, b, t3 =>
    node RBColor.red (node RBColor.black t1 a t2) b t3
  | t1, a, node RBColor.black t2 b t3 =>
    baliR t1 a (node RBColor.red t2 b t3)
  | t1, a, node RBColor.red (node RBColor.black t2 b t3) c t4 =>
    node RBColor.red (node RBColor.black t1 a t2) b (baliR t3 c (setRed t4))
  | l, k, r => node RBColor.red l k r

/-- Modelled from the spec: delete fixup when the right subtree lost one
black node (mirror of `baldL`). -/
def baldR {α : Type} : RBT α → α → RBT α → RBT α
  | t1, a, node RBColor.red t2 b t3 =>
    node RBColor.red t1 a (node RBColor.black t2 b t3)
  | node RBColor.black t1 a t2, b, t3 =>
    baliL (node RBColor.red t1 a t2) b t3
  | node RBColor.red t1 a (node RBColor.black t2 b t3), c, t4 =>
    node RBColor.red (baliL (setRed t1) a t2) b (node RBColor.black t3 c t4)
  | l, k, r => node RBColor.red l k r

/-- Modelled from the spec: joining the two subtrees of the physically
removed node (the spec's successor splice followed by the removal of the
at-most-one-child node, contracted to a one-pass join of equal
black-height subtrees). -/
def joinTrees {α : Type} : RBT α → RBT α → RBT α
  | nil, t => t
  | t, nil => t
  | node RBColor.red t1 a t2, node RBColor.red t3 c t4 =>
    match joinTrees t2 t3 with
    | node RBColor.red u2 b u3 =>
      node RBColor.red (node RBColor.red t1 a u2) b (node RBColor.red u3 c t4)
    | t23 => node RBColor.red t1 a (node RBColor.red t23 c t4)
  | node RBColor.black t1 a t2, node RBColor.black t3 c t4 =>
    match joinTrees t2 t3 with
    | node RBColor.red u2 b u3 =>
      node RBColor.red (node RBColor.black t1 a u2) b (node RBColor.black u3 c t4)
    | t23 => baldL t1 a (node RBColor.black t23 c t4)
  | t, node RBColor.red l k r => node RBColor.red (joinTrees t l) k r
  | node RBColor.red l k r, t => node RBColor.red l k (joinTrees r t)
termination_by t1 t2 => t1.size + t2.size

/-- Modelled from the spec: locate the key by BST descent and physically
remove it, running the delete fixup (`baldL`/`baldR`) whenever the
recursion comes back from under a black node whose subtree lost one black
unit. -/
def del {α : Type} [LinearOrder α] (x : α) : RBT α → RBT α
  | nil => nil
  | node _ l k r =>
    if x < k then
      match l with
      | node RBColor.black _ _ _ => baldL (del x l) k r
      | _ => node RBColor.red (del x l) k r
    else if k < x then
      match r with
      | node RBColor.black _ _ _ => baldR l k (del x r)
      | _ => node RBColor.red l k (del x r)
    else joinTrees l r

/-- Modelled from the spec: `rbt_remove` "fails if key absent", otherwise
removes the key, rebalances, and forces the root black. -/
def rbt_remove {α : Type} [LinearOrder α] (t : RBT α) (x : α) :
    Bool × RBT α :=
  if contains x t then (true, paintBlack (del x t)) else (false, t)

/-! ### The red-black invariants, as the spec states them -/

/-- Invariant (1): the root is black, or the tree is empty. -/
def rootBlack {α : Type} : RBT α → Prop
  | nil => True
  | node c _ _ _ => c = RBColor.black

/-- Invariant (2): no red node has a red child. -/
def noRedRed {α : Type} : RBT α → Prop
  | nil => True
  | node RBColor.red l _ r =>
    colorOf l = RBColor.black ∧ colorOf r = RBColor.black ∧
      noRedRed l ∧ noRedRed r
  | node RBColor.black l _ r => noRedRed l ∧ noRedRed r

/-- The multiset of black-node counts along every root-to-null path. -/
def pathBlackCounts {α : Type} : RBT α → List ℕ
  | nil => [0]
  | node c l _ r =>
    (pathBlackCounts l ++ pathBlackCounts r).map
      (fun n => if c = RBColor.black then n + 1 else n)

/-- Invariant (3): every root-to-null path passes the same number of black
nodes. -/
def uniformBlackHeight {α : Type} (t : RBT α) : Prop :=
  ∃ n, ∀ h ∈ pathBlackCounts t, h = n

end RBT

namespace RBT

/-- The balance derivation: `Bal t c n` states that `t` has root color `c`,
black-height `n`, no red-red violation anywhere, and equal black-height on
both sides of every node. -/
inductive Bal {α : Type} : RBT α → RBColor → ℕ → Prop where
  | nil : Bal RBT.nil RBColor.black 0
  | red {l r : RBT α} {k : α} {n : ℕ} :
      Bal l RBColor.black n → Bal r RBColor.black n →
      Bal (RBT.node RBColor.red l k r) RBColor.red n
  | black {l r : RBT α} {k : α} {c1 c2 : RBColor} {n : ℕ} :
      Bal l c1 n → Bal r c2 n →
      Bal (RBT.node RBColor.black l k r) RBColor.black (n + 1)

/-- An almost-balanced tree: balanced, or (when `p` holds) a red root over
two balanced subtrees of equal black-height with arbitrary root colors. -/
inductive NearBal {α : Type} (p : Prop) : RBT α → ℕ → Prop where
  | ok {t : RBT α} {c : RBColor} {n : ℕ} : Bal t c n → NearBal p t n
  | redtop {l r : RBT α} {k : α} {c1 c2 : RBColor} {n : ℕ} :
      p → Bal l c1 n → Bal r c2 n →
      NearBal p (RBT.node RBColor.red l k r) n

theorem Bal.colorOf_eq {α : Type} {t : RBT α} {c : RBColor} {n : ℕ}
    (h : Bal t c n) : colorOf t = c := by
  cases h <;> rfl

theorem NearBal.of_false {α : Type} {p : Prop} {t : RBT α} {n : ℕ}
    (hp : ¬p) (h : NearBal p t n) : ∃ c, Bal t c n := by
  cases h with
  | ok hb => exact ⟨_, hb⟩
  | redtop hpp => exact absurd hpp hp

theorem NearBal.imp {α : Type} {p q : Prop} {t : RBT α} {n : ℕ}
    (hpq : p → q) (h : NearBal p t n) : NearBal q t n := by
  cases h with
  | ok hb => exact .ok hb
  | redtop hpp hl hr => exact .redtop (hpq hpp) hl hr

theorem NearBal.of_red {α : Type} {p : Prop} {l r : RBT α} {k : α} {n : ℕ}
    (h : NearBal p (RBT.node RBColor.red l k r) n) :
    ∃ c1 c2, Bal l c1 n ∧ Bal r c2 n := by
  cases h with
  | ok hb => cases hb with
    | red hl hr => exact ⟨_, _, hl, hr⟩
  | redtop _ hl hr => exact ⟨_, _, hl, hr⟩

/-- A balanced tree whose root is black-colored is balanced at color
`black`. -/
theorem Bal.forceBlack {α : Type} {t : RBT α} {c : RBColor} {n : ℕ}
    (h : Bal t c n) (hc : colorOf t = RBColor.black) :
    Bal t RBColor.black n := by
  cases h with
  | nil => exact .nil
  | red hl hr => simp [colorOf] at hc
  | black hl hr => exact .black hl hr

/-- `paintBlack` turns any almost-balanced tree into a balanced black
tree. -/
theorem NearBal.paintBlack {α : Type} {p : Prop} {t : RBT α} {n : ℕ}
    (h : NearBal p t n) : ∃ n', Bal (paintBlack t) RBColor.black n' := by
  cases h with
  | ok hb =>
    cases hb with
    | nil => exact ⟨0, .nil⟩
    | red hl hr => exact ⟨_, .black hl hr⟩
    | black hl hr => exact ⟨_, .black hl hr⟩
  | redtop _ hl hr => exact ⟨_, .black hl hr⟩

/-- The insert rebalancing `baliL` absorbs a red-red violation in the left
subtree. -/
theorem NearBal.baliL {α : Type} {p : Prop} {l r : RBT α} {k : α}
    {c : RBColor} {n : ℕ} (hl : NearBal p l n) (hr : Bal r c n) :
    ∃ c', Bal (baliL l k r) c' (n + 1) := by
  unfold RBT.baliL
  split
  · next t1 a t2 b t3 =>
    obtain ⟨c1, c2, hll, hlr⟩ := hl.of_red
    cases hll with
    | red hl1 hl2 => exact ⟨_, .red (.black hl1 hl2) (.black hlr hr)⟩
  · next t1 a t2 b t3 _ =>
    obtain ⟨c1, c2, hll, hlr⟩ := hl.of_red
    cases hlr with
    | red hr1 hr2 => exact ⟨_, .red (.black hll hr1) (.black hr2 hr)⟩
  · next H1 H2 =>
    cases hl with
    | ok hb => exact ⟨_, .black hb hr⟩
    | @redtop a b k2 ca cb n2 hp ha hb =>
      refine ⟨_, .black (.red (ha.forceBlack ?_) (hb.forceBlack ?_)) hr⟩
      · cases a with
        | nil => rfl
        | node cc a1 y a2 =>
          cases cc with
          | red => exact (H1 a1 y a2 k2 b rfl).elim
          | black => rfl
      · cases b with
        | nil => rfl
        | node cc b1 y b2 =>
          cases cc with
          | red => exact (H2 a k2 b1 y b2 rfl).elim
          | black => rfl

/-- The insert rebalancing `baliR` absorbs a red-red violation in the
right subtree. -/
theorem NearBal.baliR {α : Type} {p : Prop} {l r : RBT α} {k : α}
    {c : RBColor} {n : ℕ} (hl : Bal l c n) (hr : NearBal p r n) :
    ∃ c', Bal (baliR l k r) c' (n + 1) := by
  unfold RBT.baliR
  split
  · obtain ⟨c1, c2, hrl, hrr⟩ := hr.of_red
    cases hrr with
    | red hr1 hr2 => exact ⟨_, .red (.black hl hrl) (.black hr1 hr2)⟩
  · obtain ⟨c1, c2, hrl, hrr⟩ := hr.of_red
    cases hrl with
    | red hl1 hl2 => exact ⟨_, .red (.black hl hl1) (.black hl2 hrr)⟩
  · next H1 H2 =>
    cases hr with
    | ok hb => exact ⟨_, .black hl hb⟩
    | @redtop a b k2 ca cb n2 hp ha hb =>
      refine ⟨_, .black hl (.red (ha.forceBlack ?_) (hb.forceBlack ?_))⟩
      · cases a with
        | nil => rfl
        | node cc a1 y a2 =>
          cases cc with
          | red => exact (H2 a1 y a2 k2 b rfl).elim
          | black => rfl
      · cases b with
        | nil => rfl
        | node cc b1 y b2 =>
          cases cc with
          | red => exact (H1 a k2 b1 y b2 rfl).elim
          | black => rfl

/-- The balance derivation is preserved by `ins`, up to one possible
red-red violation at the root when the tree's root was red. -/
theorem ins_bal {α : Type} [LinearOrder α] (x : α) :
    ∀ {t : RBT α} {c : RBColor} {n : ℕ}, Bal t c n →
      NearBal (c = RBColor.red) (ins x t) n := by
  intro t
  induction t with
  | nil =>
    intro c n h
    cases h
    exact .ok (.red .nil .nil)
  | node cc l k r ihl ihr =>
    intro c n h
    cases cc with
    | red =>
      cases h with
      | red hl hr =>
        simp only [ins]
        by_cases h1 : x < k
        · rw [if_pos h1]
          obtain ⟨c', hbal⟩ := (ihl hl).of_false (by decide)
          exact .redtop trivial hbal hr
        · rw [if_neg h1]
          by_cases h2 : k < x
          · rw [if_pos h2]
            obtain ⟨c', hbal⟩ := (ihr hr).of_false (by decide)
            exact .redtop trivial hl hbal
          · rw [if_neg h2]
            exact .ok (.red hl hr)
    | black =>
      cases h with
      | black hl hr =>
        simp only [ins]
        by_cases h1 : x < k
        · rw [if_pos h1]
          obtain ⟨c', hbal⟩ := NearBal.baliL (k := k) (ihl hl) hr
          exact .ok hbal
        · rw [if_neg h1]
          by_cases h2 : k < x
          · rw [if_pos h2]
            obtain ⟨c', hbal⟩ := NearBal.baliR (k := k) hl (ihr hr)
            exact .ok hbal
          · rw [if_neg h2]
            exact .ok (.black hl hr)

/-- `rbt_insert` preserves the balance derivation with a black root. -/
theorem rbt_insert_bal {α : Type} [LinearOrder α] {t : RBT α} {n : ℕ}
    (x : α) (h : Bal t RBColor.black n) :
    ∃ n', Bal (rbt_insert t x).2 RBColor.black n' := by
  unfold rbt_insert
  split
  · exact ⟨n, h⟩
  · exact (ins_bal x h).paintBlack

/-- The delete rebalancing `baldL` repairs a left subtree one black unit
short, following the spec's sibling case analysis. -/
theorem NearBal.baldL {α : Type} {l r : RBT α} {k : α} {c : RBColor} {n : ℕ}
    (hl : NearBal True l n) (hr : Bal r c (n + 1)) :
    NearBal (c = RBColor.red) (baldL l k r) (n + 1) := by
  unfold RBT.baldL
  split
  · -- the removed side's root is red: repaint it black
    obtain ⟨c1, c2, h1, h2⟩ := hl.of_red
    cases c with
    | red => exact .redtop rfl (.black h1 h2) hr
    | black => exact .ok (.red (.black h1 h2) hr)
  · -- sibling black: recolor it red and rebalance at the parent
    rename_i hnr
    cases hl with
    | redtop hp h1 h2 => exact ((hnr _ _ _ rfl).elim : _)
    | ok hb =>
      cases hr with
      | black ht2 ht3 =>
        obtain ⟨c', hb'⟩ := NearBal.baliR (k := k) hb (.redtop trivial ht2 ht3)
        exact .ok hb'
  · -- sibling red with black near child: rotate and recurse one level
    rename_i hnr
    cases hl with
    | redtop hp h1 h2 => exact ((hnr _ _ _ rfl).elim : _)
    | ok hb =>
      cases hr with
      | red h1 h2 =>
        cases h1 with
        | black ht2 ht3 =>
          cases h2 with
          | black hu1 hu2 =>
            obtain ⟨c', hbali⟩ :=
              NearBal.baliR ht3 (.redtop trivial hu1 hu2)
            exact .redtop rfl (.black hb ht2) hbali
  · -- unreachable when the right sibling is balanced at height n+1
    rename_i hA hB hC
    cases hr with
    | red h1 h2 =>
      cases h1 with
      | black ha hb => exact ((hC _ _ _ _ _ rfl).elim : _)
    | black h1 h2 => exact ((hB _ _ _ rfl).elim : _)

/-- The delete rebalancing `baldR` repairs a right subtree one black unit
short (mirror of `baldL`). -/
theorem NearBal.baldR {α : Type} {l r : RBT α} {k : α} {c : RBColor} {n : ℕ}
    (hl : Bal l c (n + 1)) (hr : NearBal True r n) :
    NearBal (c = RBColor.red) (baldR l k r) (n + 1) := by
  unfold RBT.baldR
  split
  · obtain ⟨c1, c2, h1, h2⟩ := hr.of_red
    cases c with
    | red => exact .redtop rfl hl (.black h1 h2)
    | black => exact .ok (.red hl (.black h1 h2))
  · rename_i hnr
    cases hr with
    | redtop hp h1 h2 => exact ((hnr _ _ _ rfl).elim : _)
    | ok hb =>
      cases hl with
      | black ht1 ht2 =>
        obtain ⟨c', hb'⟩ := NearBal.baliL (k := k) (.redtop trivial ht1 ht2) hb
        exact .ok hb'
  · rename_i hnr
    cases hr with
    | redtop hp h1 h2 => exact ((hnr _ _ _ rfl).elim : _)
    | ok hb =>
      cases hl with
      | red h1 h2 =>
        cases h2 with
        | black ht2 ht3 =>
          cases h1 with
          | black hu1 hu2 =>
            obtain ⟨c', hbali⟩ :=
              NearBal.baliL (.redtop trivial hu1 hu2) ht2
            exact .redtop rfl hbali (.black ht3 hb)
  · rename_i hA hB hC
    cases hl with
    | red h1 h2 =>
      cases h2 with
      | black ha hb => exact ((hB _ _ _ _ _ rfl).elim : _)
    | black h1 h2 => exact ((hA _ _ _ rfl).elim : _)

/-- A tree of size 0 is empty. -/
theorem size_eq_zero {α : Type} {t : RBT α} (h : t.size = 0) : t = nil := by
  cases t with
  | nil => rfl
  | node c l k r => simp at h

/-- Joining two balanced trees of equal black-height yields an
almost-balanced tree of that height; a red-red violation at the root can
appear only when one of the roots was red.  (Stated with an explicit size
bound for the induction.) -/
theorem joinTrees_bal_aux {α : Type} :
    ∀ (fuel : ℕ) (l r : RBT α) (c1 c2 : RBColor) (n : ℕ),
    l.size + r.size ≤ fuel → Bal l c1 n → Bal r c2 n →
    NearBal (¬(c1 = RBColor.black ∧ c2 = RBColor.black)) (joinTrees l r) n := by
  intro fuel
  induction fuel with
  | zero =>
    intro l r c1 c2 n hsz hl hr
    have hln : l = nil := size_eq_zero (by omega)
    subst hln
    unfold joinTrees
    split
    · exact .ok hr
    · exact .ok hl
    all_goals try (simp only [size] at hsz; omega)
    all_goals rename_i hne h1 h2
    all_goals exact
      (hne (size_eq_zero (by simp only [size] at hsz; omega))).elim
  | succ f ihf =>
    intro l r c1 c2 n hsz hl hr
    unfold joinTrees
    split
    · exact .ok hr
    · exact .ok hl
    · -- red root on both sides
      rename_i t1 a t2 t3 c4 t4
      simp only [size] at hsz
      cases hl with
      | red ha hb =>
        cases hr with
        | red hc hd =>
          have IH := ihf t2 t3 _ _ n (by omega) hb hc
          obtain ⟨cj, hj⟩ := IH.of_false (fun hno => hno ⟨rfl, rfl⟩)
          split
          · next u2 b u3 heq =>
            rw [heq] at hj
            cases hj with
            | red hu2 hu3 =>
              exact .redtop (fun h => nomatch h.1) (.red ha hu2) (.red hu3 hd)
          · next H =>
            refine .redtop (fun h => nomatch h.1) ha
              (.red (hj.forceBlack ?_) hd)
            rcases h23 : joinTrees t2 t3 with _ | ⟨cc, u1, y, u2⟩
            · rfl
            · cases cc with
              | red => exact ((H u1 y u2 h23).elim : _)
              | black => rfl
    · -- black root on both sides
      rename_i t1 a t2 t3 c4 t4
      simp only [size] at hsz
      cases hl with
      | @black _ _ _ ca cb m ha hb =>
        cases hr with
        | @black _ _ _ cc cd m2 hc hd =>
          have IH := ihf t2 t3 _ _ m (by omega) hb hc
          split
          · next u2 b u3 heq =>
            rw [heq] at IH
            obtain ⟨du2, du3, hu2, hu3⟩ := IH.of_red
            exact .ok (.red (.black ha hu2) (.black hu3 hd))
          · next H =>
            have hjt : ∃ cj, Bal (joinTrees t2 t3) cj m := by
              generalize hgen : joinTrees t2 t3 = jt at IH H ⊢
              cases IH with
              | ok hjj => exact ⟨_, hjj⟩
              | redtop hp h1 h2 => exact (H _ _ _ rfl).elim
            obtain ⟨cj, hj⟩ := hjt
            exact (NearBal.baldL (.ok ha) (.black hj hd)).imp
              (fun h => nomatch h)
    · -- left side black node, right side red node
      rename_i t3 k4 t4 A B
      cases hr with
      | red hc hd =>
        rcases l with _ | ⟨cc, u1, y, u2⟩
        · exact (A rfl).elim
        · cases cc with
          | red => exact ((B u1 y u2 rfl).elim : _)
          | black =>
            simp only [size] at hsz
            have hc1 := hl.colorOf_eq
            simp only [colorOf] at hc1
            subst hc1
            have IH := ihf (node RBColor.black u1 y u2) t3 _ _ n
              (by simp only [size]; omega) hl hc
            obtain ⟨cj, hj⟩ := IH.of_false (fun hno => hno ⟨rfl, rfl⟩)
            exact .redtop (fun h => nomatch h.2) hj hd
    · -- left side red node, right side black node
      rename_i t1 a t2 A B C
      cases hl with
      | red ha hb =>
        rcases r with _ | ⟨cc, u1, y, u2⟩
        · exact (A rfl).elim
        · cases cc with
          | red => exact ((B u1 y u2 rfl).elim : _)
          | black =>
            simp only [size] at hsz
            have hc2 := hr.colorOf_eq
            simp only [colorOf] at hc2
            subst hc2
            have IH := ihf t2 (node RBColor.black u1 y u2) _ _ n
              (by simp only [size]; omega) hb hr
            obtain ⟨cj, hj⟩ := IH.of_false (fun hno => hno ⟨rfl, rfl⟩)
            exact .redtop (fun h => nomatch h.1) ha hj

/-- Joining two balanced trees of equal black-height yields an
almost-balanced tree of that height. -/
theorem joinTrees_bal {α : Type} {l r : RBT α} {c1 c2 : RBColor} {n : ℕ}
    (hl : Bal l c1 n) (hr : Bal r c2 n) :
    NearBal (¬(c1 = RBColor.black ∧ c2 = RBColor.black)) (joinTrees l r) n :=
  joinTrees_bal_aux (l.size + r.size) l r c1 c2 n (le_refl _) hl hr

/-- The delete invariant: deleting inside a black-rooted subtree lowers its
black-height by one and may leave a red-red violation at its root;
deleting inside a red-rooted or empty subtree preserves the black-height
and balance. -/
def DelBal {α : Type} (del_t : RBT α) (isB : Bool) (n : ℕ) : Prop :=
  if isB then ∃ m, n = m + 1 ∧ NearBal True del_t m
  else ∃ c, Bal del_t c n

theorem del_bal {α : Type} [LinearOrder α] (x : α) :
    ∀ {t : RBT α} {c : RBColor} {n : ℕ}, Bal t c n →
      DelBal (del x t) (isBlackNode t) n := by
  intro t
  induction t with
  | nil =>
    intro c n h
    cases h
    unfold DelBal
    rw [if_neg (by simp [isBlackNode])]
    exact ⟨_, .nil⟩
  | node cc l k r ihl ihr =>
    intro c n h
    cases cc with
    | red =>
      cases h with
      | red hl hr =>
        unfold DelBal
        rw [if_neg (by simp [isBlackNode])]
        simp only [del]
        by_cases h1 : x < k
        · rw [if_pos h1]
          rcases l with _ | ⟨lc, a, y, b⟩
          · exact ⟨_, .red hl hr⟩
          · cases lc with
            | red => exact nomatch hl
            | black =>
              have hdel := ihl hl
              unfold DelBal at hdel
              rw [if_pos (by simp [isBlackNode])] at hdel
              obtain ⟨m, hm, hnb⟩ := hdel
              subst hm
              obtain ⟨c', hbb⟩ :=
                (NearBal.baldL (k := k) hnb hr).of_false (by decide)
              exact ⟨_, hbb⟩
        · rw [if_neg h1]
          by_cases h2 : k < x
          · rw [if_pos h2]
            rcases r with _ | ⟨rc, a, y, b⟩
            · exact ⟨_, .red hl hr⟩
            · cases rc with
              | red => exact nomatch hr
              | black =>
                have hdel := ihr hr
                unfold DelBal at hdel
                rw [if_pos (by simp [isBlackNode])] at hdel
                obtain ⟨m, hm, hnb⟩ := hdel
                subst hm
                obtain ⟨c', hbb⟩ :=
                  (NearBal.baldR (k := k) hl hnb).of_false (by decide)
                exact ⟨_, hbb⟩
          · rw [if_neg h2]
            obtain ⟨c', hbb⟩ :=
              (joinTrees_bal hl hr).of_false (fun hno => hno ⟨rfl, rfl⟩)
            exact ⟨_, hbb⟩
    | black =>
      cases h with
      | @black _ _ _ ca cb m hl hr =>
        unfold DelBal
        rw [if_pos (by simp [isBlackNode])]
        refine ⟨m, rfl, ?_⟩
        simp only [del]
        by_cases h1 : x < k
        · rw [if_pos h1]
          rcases l with _ | ⟨lc, a, y, b⟩
          · exact .redtop trivial hl hr
          · cases lc with
            | red =>
              have hdel := ihl hl
              unfold DelBal at hdel
              rw [if_neg (by simp [isBlackNode])] at hdel
              obtain ⟨c', hbal⟩ := hdel
              exact .redtop trivial hbal hr
            | black =>
              have hdel := ihl hl
              unfold DelBal at hdel
              rw [if_pos (by simp [isBlackNode])] at hdel
              obtain ⟨m2, hm2, hnb⟩ := hdel
              subst hm2
              exact (NearBal.baldL (k := k) hnb hr).imp (fun _ => trivial)
        · rw [if_neg h1]
          by_cases h2 : k < x
          · rw [if_pos h2]
            rcases r with _ | ⟨rc, a, y, b⟩
            · exact .redtop trivial hl hr
            · cases rc with
              | red =>
                have hdel := ihr hr
                unfold DelBal at hdel
                rw [if_neg (by simp [isBlackNode])] at hdel
                obtain ⟨c', hbal⟩ := hdel
                exact .redtop trivial hl hbal
              | black =>
                have hdel := ihr hr
                unfold DelBal at hdel
                rw [if_pos (by simp [isBlackNode])] at hdel
                obtain ⟨m2, hm2, hnb⟩ := hdel
                subst hm2
                exact (NearBal.baldR (k := k) hl hnb).imp (fun _ => trivial)
          · rw [if_neg h2]
            exact (joinTrees_bal hl hr).imp (fun _ => trivial)

/-- `rbt_remove` preserves the balance derivation with a black root. -/
theorem rbt_remove_bal {α : Type} [LinearOrder α] {t : RBT α} {n : ℕ}
    (x : α) (h : Bal t RBColor.black n) :
    ∃ n', Bal (rbt_remove t x).2 RBColor.black n' := by
  unfold rbt_remove
  split
  · have hd := del_bal x h
    unfold DelBal at hd
    split at hd
    · obtain ⟨m, hm, hnb⟩ := hd
      exact hnb.paintBlack
    · obtain ⟨c', hb⟩ := hd
      exact (NearBal.ok (p := True) hb).paintBlack
  · exact ⟨n, h⟩

/-- A balance derivation rules out red-red violations. -/
theorem Bal.toNoRedRed {α : Type} {t : RBT α} {c : RBColor} {n : ℕ}
    (h : Bal t c n) : noRedRed t := by
  induction h with
  | nil => exact trivial
  | red hl hr ihl ihr =>
    exact ⟨hl.colorOf_eq, hr.colorOf_eq, ihl, ihr⟩
  | black hl hr ihl ihr => exact ⟨ihl, ihr⟩

/-- A balance derivation makes every root-to-null black count equal to the
black-height. -/
theorem Bal.toPaths {α : Type} {t : RBT α} {c : RBColor} {n : ℕ}
    (h : Bal t c n) : ∀ m ∈ pathBlackCounts t, m = n := by
  induction h with
  | nil =>
    intro m hm
    simp [pathBlackCounts] at hm
    exact hm
  | red hl hr ihl ihr =>
    intro m hm
    simp only [pathBlackCounts, List.mem_map, List.mem_append] at hm
    obtain ⟨m0, hm0, hme⟩ := hm
    rw [if_neg (by decide)] at hme
    subst hme
    rcases hm0 with hm0 | hm0
    · exact ihl _ hm0
    · exact ihr _ hm0
  | black hl hr ihl ihr =>
    intro m hm
    simp only [pathBlackCounts, List.mem_map, List.mem_append] at hm
    obtain ⟨m0, hm0, hme⟩ := hm
    rw [if_pos trivial] at hme
    subst hme
    rcases hm0 with hm0 | hm0
    · rw [ihl _ hm0]
    · rw [ihr _ hm0]

/-- A black-rooted balance derivation gives invariant (1). -/
theorem Bal.toRootBlack {α : Type} {t : RBT α} {n : ℕ}
    (h : Bal t RBColor.black n) : rootBlack t := by
  cases h with
  | nil => exact trivial
  | black _ _ => exact rfl

/-- Modelled from the spec: an insert or delete-by-key request against the
missing `RedBlackTree.c`. -/
inductive RBOp (α : Type) where
  | insert (x : α)
  | remove (x : α)

/-- Runs a list of tree requests left to right through `rbt_insert` and
`rbt_remove`. -/
def rbt_run {α : Type} [LinearOrder α] : List (RBOp α) → RBT α → RBT α
  | [], t => t
  | RBOp.insert x :: rest, t => rbt_run rest (rbt_insert t x).2
  | RBOp.remove x :: rest, t => rbt_run rest (rbt_remove t x).2

/-- Any run of inserts and removes preserves a black-rooted balance
derivation. -/
theorem rbt_run_bal {α : Type} [LinearOrder α] :
    ∀ (ops : List (RBOp α)) (t : RBT α), (∃ n, Bal t RBColor.black n) →
      ∃ n, Bal (rbt_run ops t) RBColor.black n := by
  intro ops
  induction ops with
  | nil => exact fun t h => h
  | cons op rest ih =>
    intro t h
    obtain ⟨n, hb⟩ := h
    cases op with
    | insert x => exact ih _ (rbt_insert_bal x hb)
    | remove x => exact ih _ (rbt_remove_bal x hb)

end RBT

/-- C10: for every sequence of `rbt_insert`/`rbt_remove` requests, after
each operation completes (i.e. after every prefix of the request list,
starting from the empty tree) the tree satisfies the red-black invariants:
the root is black or the tree is empty, no red node has a red child, and
every root-to-null path passes through the same number of black nodes. -/
theorem C10_rbt_invariants {α : Type} [LinearOrder α]
    (ops : List (RBT.RBOp α)) (j : ℕ) :
    RBT.rootBlack (RBT.rbt_run (ops.take j) RBT.nil) ∧
    RBT.noRedRed (RBT.rbt_run (ops.take j) RBT.nil) ∧
    RBT.uniformBlackHeight (RBT.rbt_run (ops.take j) RBT.nil) := by
  obtain ⟨n, hb⟩ := RBT.rbt_run_bal (ops.take j) RBT.nil ⟨0, .nil⟩
  exact ⟨hb.toRootBlack, hb.toNoRedRed, n, hb.toPaths⟩

end CDSL
